import Mathlib

/-!
A shallow embedding of the Thor raw-text preprocessor
(`src/Thor/preprocess/raw.py` and the word filter of `src/Thor/pdf/page.py`),
together with theorems about its behaviour.

Modelling conventions:
* Python strings become `List Char`; character positions are `Nat`.
* Geometry coordinates become `ℚ` (the source works with exact page numbers
  coming from JSON; no claim here depends on floating-point rounding).
* Python exceptions (`ZeroDivisionError` raised by `/` and the explicit
  `RawTextPreprocessorException`) become an `Except PyErr` result.
* The mutable object graph is replaced by explicit state passing: every
  method that mutates its object returns the updated value.
* `Thor.utils.Rectangle` and `Thor.utils.Point` are not under `src/`; they
  are modelled from the spec where marked.
-/

set_option maxHeartbeats 1600000

namespace Thor

/-- Modelled from the spec: `Thor.utils.Point` is not under `src/`.  The spec
describes Point as `(x, y)`, used only as regression/centroid input. -/
structure Point where
  x : ℚ
  y : ℚ
deriving DecidableEq

instance : Inhabited Point := ⟨⟨0, 0⟩⟩

/-- Modelled from the spec: `Thor.utils.Rectangle` is not under `src/`.  The
spec describes Rectangle as `(x, y, w, h)` in page coordinate space. -/
structure Rectangle where
  x : ℚ
  y : ℚ
  w : ℚ
  h : ℚ
deriving DecidableEq

instance : Inhabited Rectangle := ⟨⟨0, 0, 0, 0⟩⟩

/-- Modelled from the spec: rectangle union (`|` in the source) is "the
smallest rectangle containing both". -/
def Rectangle.union (r s : Rectangle) : Rectangle :=
  let x1 := min r.x s.x
  let y1 := min r.y s.y
  let x2 := max (r.x + r.w) (s.x + s.w)
  let y2 := max (r.y + r.h) (s.y + s.h)
  ⟨x1, y1, x2 - x1, y2 - y1⟩

/-- `r.contains s` says rectangle `s` lies inside rectangle `r`. -/
def Rectangle.contains (r s : Rectangle) : Prop :=
  r.x ≤ s.x ∧ r.y ≤ s.y ∧ s.x + s.w ≤ r.x + r.w ∧ s.y + s.h ≤ r.y + r.h

instance (r s : Rectangle) : Decidable (r.contains s) := by
  unfold Rectangle.contains; infer_instance

/-- Modelled from the spec: the intersection test (`&` in the source) decides
"non-empty overlap with another rectangle". -/
def Rectangle.inter (r s : Rectangle) : Option Rectangle :=
  let x1 := max r.x s.x
  let y1 := max r.y s.y
  let x2 := min (r.x + r.w) (s.x + s.w)
  let y2 := min (r.y + r.h) (s.y + s.h)
  if x1 ≤ x2 ∧ y1 ≤ y2 then some ⟨x1, y1, x2 - x1, y2 - y1⟩ else none

/-- The dictionary payload of a positioned token:
`{'t': text, 'x': .., 'y': .., 'w': .., 'h': ..}`. -/
structure WordObj where
  t : List Char
  x : ℚ
  y : ℚ
  w : ℚ
  h : ℚ

instance : Inhabited WordObj := ⟨⟨[], 0, 0, 0, 0⟩⟩

/-- Match record from `raw.py`.  `data` is the referenced entity: on a
stream-side match it is the matched word's record; on a word-side match the
source stores the stream object but never reads it, so the embedding
instantiates `α` with `Unit` there. -/
structure Match (α : Type) where
  index : Nat
  data : α
  start : Nat
  «end» : Nat

instance {α : Type} [Inhabited α] : Inhabited (Match α) := ⟨⟨0, default, 0, 0⟩⟩

/-- `Word` wrapper from `raw.py`: the token record plus its match list. -/
structure Word where
  _word_obj : WordObj
  «matches» : List (Match Unit)

instance : Inhabited Word := ⟨⟨default, []⟩⟩

/-- `word.rectangle` property from `raw.py`. -/
def Word.rectangle (w : Word) : Rectangle :=
  ⟨w._word_obj.x, w._word_obj.y, w._word_obj.w, w._word_obj.h⟩

/-- `Stream` from `raw.py`: the raw string, the cached mergeable flag and the
match list. -/
structure Stream where
  _stream : List Char
  _may_merge : Bool
  «matches» : List (Match WordObj)

instance : Inhabited Stream := ⟨⟨[], false, []⟩⟩

/-- Python exceptions that can escape the modelled code. -/
inductive PyErr where
  | rawTextPreprocessorException
  | zeroDivisionError
deriving DecidableEq

/-- Python division: raises `ZeroDivisionError` on a zero divisor. -/
def pyDiv (a b : ℚ) : Except PyErr ℚ :=
  if b = 0 then .error .zeroDivisionError else .ok (a / b)

/-- The per-character coverage counter of `Stream._may_reconstruct_by`:
start from all zeroes over the stream's length and increment every index
inside each match's `[start, end)` interval. -/
def Stream.buildCounter (s : Stream) («matches» : List (Match WordObj)) : List Nat :=
  «matches».foldl
    (fun counter m =>
      (List.range' m.start (m.«end» - m.start)).foldl
        (fun c ix => c.set ix (c.getD ix 0 + 1)) counter)
    (List.replicate s._stream.length 0)

/-- `Stream._may_reconstruct_by` from `raw.py`: build the coverage counter,
then accept iff no counter exceeds 1 and every uncovered position holds a
space. -/
def Stream._may_reconstruct_by (s : Stream) («matches» : List (Match WordObj)) : Bool :=
  if «matches».length = 0 then false
  else
    let counter := s.buildCounter «matches»
    (List.range s._stream.length).all fun ix =>
      if counter.getD ix 0 > 1 then false
      else if counter.getD ix 0 == 0 && s._stream.getD ix ' ' != ' ' then false
      else true

/-- `Stream.may_merge` from `raw.py`.  Returns the boolean result together
with the updated stream (the source caches the result on the object). -/
def Stream.may_merge (s : Stream) : Bool × Stream :=
  if s._may_merge then (true, s)
  else
    let r := s._may_reconstruct_by s.«matches»
    (r, { s with _may_merge := r })

/-- `str.find(needle, start)` from Python: the first offset `≥ start` where
`needle` occurs (as a contiguous substring), if any. -/
def strFind (hay needle : List Char) (start : Nat) : Option Nat :=
  ((List.range (hay.length + 1)).filter
      (fun ix => start ≤ ix ∧ needle.isPrefixOf (hay.drop ix))).head?

/-- The scanning loop of `Stream.find_word`: repeatedly `find` and resume at
`found + 1`.  `fuel` only serves structural termination; it is initialised to
the stream length, which dominates the number of loop iterations (each
iteration strictly increases `start_pos` and the loop stops once
`start_pos ≥ length`). -/
def findWordAux (stream t : List Char) : Nat → Nat → List Nat
  | 0, _ => []
  | fuel + 1, start_pos =>
    if start_pos < stream.length then
      match strFind stream t start_pos with
      | none => []
      | some ix => ix :: findWordAux stream t fuel (ix + 1)
    else []

/-- `Stream.find_word` from `raw.py`: all the offsets at which the word's
text occurs in the stream (overlapping occurrences included). -/
def Stream.find_word (s : Stream) (word : WordObj) : List Nat :=
  findWordAux s._stream word.t s._stream.length 0

/-- All the ways to pick `k` elements of a list keeping their original order:
the order-preserving subsequences of length `k`, in lexicographic position
order.  `discard_outliers` enumerates exactly these (the source filters
`permutations(range(n), k)` down to the sorted index tuples, which is the
same enumeration, combination by combination). -/
def combos {α : Type} : Nat → List α → List (List α)
  | 0, _ => [[]]
  | _ + 1, [] => []
  | k + 1, x :: xs => ((combos k xs).map (fun e => x :: e)) ++ combos (k + 1) xs

/-- The centroid points of the matched words' rectangles, as computed in
`Stream.discard_outliers`. -/
def Stream.centroids (s : Stream) : List Point :=
  s.«matches».map (fun m => ⟨m.data.x + m.data.w / 2, m.data.y + m.data.h / 2⟩)

/-- The full candidate enumeration of `Stream.discard_outliers`: every
order-preserving subsequence of the match list, of every length from 2 to
`count - 1`, each match carried together with its centroid. -/
def Stream.enum_picks (s : Stream) : List (List (Match WordObj × Point)) :=
  (List.range' 2 (s.«matches».length - 2)).flatMap
    (fun num_pick => combos num_pick (s.«matches».zip s.centroids))

/-- The simple linear regression of `Stream.discard_outliers`:
`b = Σ(x-mean_x)(y-mean_y) / Σ(x-mean_x)^2`, scored by `|mean_y - b*mean_x|`.
Python's `/` raises `ZeroDivisionError` on a zero divisor. -/
def regressionScore (points : List Point) (num_pick : Nat) : Except PyErr ℚ := do
  let m_x ← pyDiv (points.map Point.x).sum num_pick
  let m_y ← pyDiv (points.map Point.y).sum num_pick
  let b_num := (points.map (fun c => (c.x - m_x) * (c.y - m_y))).sum
  let b ← pyDiv b_num ((points.map (fun c => (c.x - m_x) ^ 2)).sum)
  pure |m_y - b * m_x|

/-- One iteration of the candidate loop of `Stream.discard_outliers`:
reject the pick unless it passes the coverage validator, otherwise score it
and keep it when it strictly beats the best so far (`none` plays the role of
the initial `float('inf')` / `None` pair). -/
def Stream.outlierStep (s : Stream) (acc : Option (ℚ × List (Match WordObj × Point)))
    (pick : List (Match WordObj × Point)) :
    Except PyErr (Option (ℚ × List (Match WordObj × Point))) := do
  if s._may_reconstruct_by (pick.map Prod.fst) = false then return acc
  let a ← regressionScore (pick.map Prod.snd) pick.length
  match acc with
  | none => return some (a, pick)
  | some (best_horizontal, best) =>
    if a < best_horizontal then return some (a, pick) else return some (best_horizontal, best)

/-- `Stream.discard_outliers` from `raw.py`: with fewer than 3 candidate
matches fail immediately; otherwise search every order-preserving
subsequence of length 2..count-1 for the valid one with the smallest
regression score and replace the match list with the winner. -/
def Stream.discard_outliers (s : Stream) : Except PyErr (Bool × Stream) :=
  if s.«matches».length < 3 then .ok (false, s)
  else
    (s.enum_picks.foldlM (s.outlierStep) none).bind fun best =>
      match best with
      | none => .ok (false, s)
      | some (_, best_pick) => .ok (true, { s with «matches» := best_pick.map Prod.fst })

/-- `RawTextPreprocessor` state: the word list and the raw-stream list
(the `page` attribute only supplies construction-time data). -/
structure RawTextPreprocessor where
  words : List Word
  raw_streams : List Stream

/-- `RawTextPreprocessor._associate_word_with_stream` (together with
`__init__`): build the bipartite match graph.  Each stream's match list is
filled word by word (outer loop over words), each word's match list stream
by stream. -/
def RawTextPreprocessor.init (pageWords : List WordObj) (rawTexts : List (List Char)) :
    RawTextPreprocessor :=
  let streams0 := rawTexts.map (fun t => Stream.mk t false [])
  { words := pageWords.map (fun w =>
      { _word_obj := w
        «matches» := streams0.enum.flatMap (fun p =>
          (p.2.find_word w).map
            (fun start => Match.mk p.1 () start (start + w.t.length))) })
    raw_streams := streams0.enum.map (fun p =>
      { p.2 with «matches» := pageWords.enum.flatMap (fun q =>
          (p.2.find_word q.2).map
            (fun start => Match.mk q.1 q.2 start (start + q.2.t.length))) }) }

/-- The body of the bookkeeping loop of `_merge_words_of_stream`, for one
consumed word index: restrict that word's match list to the merged stream,
and remove the word index from every other stream's match list. -/
def RawTextPreprocessor.claimStep (raw_stream_ix : Nat) (p : RawTextPreprocessor)
    (word_ix : Nat) : RawTextPreprocessor :=
  let w := p.words.getD word_ix default
  let w := { w with «matches» := w.«matches».filter (fun m => m.index == raw_stream_ix) }
  let p := { p with words := p.words.set word_ix w }
  { p with raw_streams := p.raw_streams.mapIdx (fun stream_ix st =>
      if stream_ix == raw_stream_ix then st
      else { st with «matches» := st.«matches».filter (fun m => m.index != word_ix) }) }

/-- `RawTextPreprocessor._merge_words_of_stream`: commit a merge for one
stream.  Raises unless the stream currently validates; removes every
consumed word index from every other stream's match list, restricts each
consumed word's match list to this stream, and emits the union-rectangle
line token carrying the stream's full string. -/
def RawTextPreprocessor._merge_words_of_stream (p : RawTextPreprocessor)
    (raw_stream_ix : Nat) : Except PyErr (WordObj × RawTextPreprocessor) :=
  let raw_stream := p.raw_streams.getD raw_stream_ix default
  let ok_stream := raw_stream.may_merge
  let p := { p with raw_streams := p.raw_streams.set raw_stream_ix ok_stream.2 }
  if ok_stream.1 = false then .error .rawTextPreprocessorException
  else
    let word_indices := ok_stream.2.«matches».map (fun m => m.index)
    let p := word_indices.foldl (RawTextPreprocessor.claimStep raw_stream_ix) p
    let union := word_indices.foldl
      (fun u word_ix => u.union (p.words.getD word_ix default).rectangle)
      (p.words.getD (word_indices.getD 0 0) default).rectangle
    .ok (⟨ok_stream.2._stream, union.x, union.y, union.w, union.h⟩, p)

/-- The driver state of `RawTextPreprocessor.run`: the preprocessor graph,
the set of resolved ("can merge") stream indices, the output tokens emitted
so far and the progress flag of the current pass. -/
structure LoopState where
  pre : RawTextPreprocessor
  can_merge_streams : List Nat
  out : List WordObj
  keep_merging : Bool

/-- The tail of `run`'s loop body once the outlier-search fallback has run:
re-test `may_merge` on the (possibly pruned) stream, write the stream's new
state back, and on success commit a merge, resolve the stream and record
progress. -/
def RawTextPreprocessor.runPassFinish (st : LoopState) (stream_ix : Nat)
    (stream : Stream) : Except PyErr LoopState :=
  let ok2 := stream.may_merge
  let p := { st.pre with raw_streams := st.pre.raw_streams.set stream_ix ok2.2 }
  if ok2.1 then
    (p._merge_words_of_stream stream_ix).bind fun r =>
      .ok ⟨r.2, stream_ix :: st.can_merge_streams, st.out ++ [r.1], true⟩
  else
    .ok { st with pre := p }

/-- The body of `run`'s `for` loop, for one stream index: skip resolved
streams; otherwise try the validator, fall back to the outlier search when
it fails, and finish with the re-test and possible merge commit. -/
def RawTextPreprocessor.runPassStep (st : LoopState) (stream_ix : Nat) :
    Except PyErr LoopState :=
  if stream_ix ∈ st.can_merge_streams then .ok st
  else
    let stream := st.pre.raw_streams.getD stream_ix default
    let ok1 := stream.may_merge
    if ok1.1 = false then
      ok1.2.discard_outliers.bind fun r =>
        RawTextPreprocessor.runPassFinish st stream_ix r.2
    else
      RawTextPreprocessor.runPassFinish st stream_ix ok1.2

/-- The `while keep_merging` loop of `run`.  `fuel` only serves structural
termination; `run` passes `raw_streams.length + 1`, which dominates the
number of passes (every pass that sets `keep_merging` strictly enlarges
`can_merge_streams`, a set of stream indices). -/
def RawTextPreprocessor.runLoop : Nat → LoopState → Except PyErr LoopState
  | 0, st => .ok st
  | fuel + 1, st => do
    let st ← (List.range st.pre.raw_streams.length).foldlM
      RawTextPreprocessor.runPassStep { st with keep_merging := false }
    if st.keep_merging then RawTextPreprocessor.runLoop fuel st else .ok st

/-- `RawTextPreprocessor.run`: iterate merging to a fixed point, then pass
through every word never claimed by a resolved stream, in original order.
Besides the output token list the embedding also returns the final graph
and the resolved stream indices, so that end-of-run invariants can be
stated. -/
def RawTextPreprocessor.run (p : RawTextPreprocessor) :
    Except PyErr (List WordObj × RawTextPreprocessor × List Nat) := do
  let st ← RawTextPreprocessor.runLoop (p.raw_streams.length + 1) ⟨p, [], [], true⟩
  let flags := (List.range st.pre.words.length).map (fun word_ix =>
    st.can_merge_streams.all (fun stream_ix =>
      (st.pre.raw_streams.getD stream_ix default).«matches».all
        (fun m => m.index != word_ix)))
  let passthrough := (st.pre.words.enum.filter (fun q => flags.getD q.1 false)).map
    (fun q => q.2._word_obj)
  return (st.out ++ passthrough, st.pre, st.can_merge_streams)

/-- `_filter_invisible_words` from `page.py`: drop the words whose text is a
single plain space or an em space, and keep only the words whose rectangle
overlaps the page rectangle. -/
def _filter_invisible_words (width height : ℚ) (words : List WordObj) : List WordObj :=
  let world_rect : Rectangle := ⟨0, 0, width, height⟩
  words.filter (fun word =>
    if word.t = [' '] ∨ word.t = [' '] then false
    else (Rectangle.inter ⟨word.x, word.y, word.w, word.h⟩ world_rect).isSome)


/-! ### Specification-side definitions

Mathematical companions of the code above, used to state its properties. -/

/-- How many of the given matches cover character position `ix`. -/
def covCount («matches» : List (Match WordObj)) (ix : Nat) : Nat :=
  «matches».countP (fun m => decide (m.start ≤ ix ∧ ix < m.«end»))

/-- The acceptance condition of the coverage validator, stated pointwise:
no position is covered twice and every uncovered position is a space. -/
def goodCoverage (s : Stream) («matches» : List (Match WordObj)) : Prop :=
  ∀ ix < s._stream.length,
    covCount «matches» ix ≤ 1 ∧ (covCount «matches» ix = 0 → s._stream.getD ix ' ' = ' ')

/-- Rebuild a string from a match set: every covered position takes its
character from the covering match's matched substring (a slice of the
stream), every uncovered position contributes a space.  This is
"concatenating the matched substrings in interval order with the
inter-match characters", position by position. -/
def reconstructOf (s : Stream) («matches» : List (Match WordObj)) : List Char :=
  (List.range s._stream.length).map fun ix =>
    match «matches».find? (fun m => decide (m.start ≤ ix ∧ ix < m.«end»)) with
    | some m => ((s._stream.drop m.start).take (m.«end» - m.start)).getD (ix - m.start) ' '
    | none => ' '

/-- The centroid of one matched word's rectangle. -/
def centroidOf (m : Match WordObj) : Point :=
  ⟨m.data.x + m.data.w / 2, m.data.y + m.data.h / 2⟩

/-- Arithmetic mean of a list of rationals. -/
def meanOf (l : List ℚ) : ℚ := l.sum / l.length

/-- The regression denominator `Σ(x - mean_x)^2` over a list of points. -/
def denomOf (points : List Point) : ℚ :=
  (points.map (fun c => (c.x - meanOf (points.map Point.x)) ^ 2)).sum

/-- The outlier-search score `|mean_y - b * mean_x|` of a list of points,
where `b` is the fitted slope. -/
def scoreOf (points : List Point) : ℚ :=
  let m_x := meanOf (points.map Point.x)
  let m_y := meanOf (points.map Point.y)
  let b := (points.map (fun c => (c.x - m_x) * (c.y - m_y))).sum / denomOf points
  |m_y - b * m_x|

/-- A pick is valid when the coverage validator accepts its matches. -/
def validPick (s : Stream) (pick : List (Match WordObj × Point)) : Prop :=
  s._may_reconstruct_by (pick.map Prod.fst) = true

/-- Invariant of the best-so-far accumulator of the outlier search after the
picks in `seen` have been examined: an empty accumulator means no valid pick
was seen, and a non-empty one stores a seen valid pick of globally minimal
score together with that score. -/
def GoodAcc (s : Stream) (seen : List (List (Match WordObj × Point)))
    (acc : Option (ℚ × List (Match WordObj × Point))) : Prop :=
  (acc = none → ∀ q ∈ seen, ¬ validPick s q) ∧
  (∀ a w, acc = some (a, w) →
    w ∈ seen ∧ validPick s w ∧ a = scoreOf (w.map Prod.snd) ∧
    ∀ q ∈ seen, validPick s q → a ≤ scoreOf (q.map Prod.snd))

/-- The word indices referenced by stream `i` of preprocessor state `p`. -/
def streamIndices (p : RawTextPreprocessor) (i : Nat) : List Nat :=
  (p.raw_streams.getD i default).«matches».map (fun m => m.index)

/-- No word index is shared between a resolved stream and any other stream. -/
def disjointResolved (p : RawTextPreprocessor) (resolved : List Nat) : Prop :=
  ∀ i ∈ resolved, ∀ j, j ≠ i → ∀ w ∈ streamIndices p i, w ∉ streamIndices p j

/-! ### Concrete fixtures

Small concrete inputs used to exercise the theorems below; the words and
streams mirror the scenarios of the spec. -/

/-- The word "ab" of scenario A. -/
def exWab : WordObj := ⟨['a', 'b'], 0, 0, 2, 2⟩

/-- The word "cd" of scenario A. -/
def exWcd : WordObj := ⟨['c', 'd'], 3, 0, 2, 2⟩

/-- Scenario A: stream "ab cd" with "ab" matched at [0,2) and "cd" at [3,5). -/
def exStreamA : Stream :=
  ⟨['a', 'b', ' ', 'c', 'd'], false, [⟨0, exWab, 0, 2⟩, ⟨1, exWcd, 3, 5⟩]⟩

/-- A single-character word "a" on the line y = 0..2. -/
def exWa : WordObj := ⟨['a'], 0, 0, 2, 2⟩

/-- A one-match stream "a" that validates. -/
def exStreamOk : Stream := ⟨['a'], false, [⟨0, exWa, 0, 1⟩]⟩

/-- A stream "ab" with only two candidate matches (outlier-search floor). -/
def exStreamTwo : Stream :=
  ⟨['a', 'b'], false, [⟨0, exWa, 0, 1⟩, ⟨1, ⟨['b'], 1, 0, 2, 2⟩, 1, 2⟩]⟩

/-- A second copy of the word "a", far above the first. -/
def exWaHigh : WordObj := ⟨['a'], 0, 4, 2, 2⟩

/-- A stream "a a" whose word "a" occurs at offsets 0 and 2 and is also
matched by a second word of the same text and the same x-extent: the first
enumerated 2-subsequence is valid but its two centroids share one x, so the
regression denominator is 0. -/
def exStreamZeroDenom : Stream :=
  ⟨['a', ' ', 'a'], false,
    [⟨0, exWa, 0, 1⟩, ⟨0, exWa, 2, 3⟩, ⟨1, exWaHigh, 0, 1⟩]⟩

/-- The word "b" at x-extent [2,4], used by the zero-denominator witness. -/
def exWb : WordObj := ⟨['b'], 2, 0, 2, 2⟩

/-- The word "b", far above `exWb`. -/
def exWbHigh : WordObj := ⟨['b'], 2, 4, 2, 2⟩

/-- A second zero-denominator stream, "b b", used as a separate witness
input for the amended zero-denominator behaviour. -/
def exStreamZeroDenom2 : Stream :=
  ⟨['b', ' ', 'b'], false,
    [⟨0, exWb, 0, 1⟩, ⟨0, exWb, 2, 3⟩, ⟨1, exWbHigh, 0, 1⟩]⟩

/-- The word "b" centred at x = 3, for the outlier-search success witness. -/
def exWbMid : WordObj := ⟨['b'], 2, 0, 2, 2⟩

/-- A third word "a", centred at x = 5 and high up. -/
def exWaFar : WordObj := ⟨['a'], 4, 4, 2, 2⟩

/-- A stream "a b" with three candidate matches whose full set overlaps at
position 0, but whose 2-subsequences include valid ones with distinct
centroid x-coordinates. -/
def exStreamOutlier : Stream :=
  ⟨['a', ' ', 'b'], false,
    [⟨0, exWa, 0, 1⟩, ⟨1, exWbMid, 2, 3⟩, ⟨2, exWaFar, 0, 1⟩]⟩

/-- A preprocessor with one word and no streams at all. -/
def exPreNoStreams : RawTextPreprocessor :=
  ⟨[⟨exWa, []⟩], []⟩

/-- A preprocessor with one word and one stream that does not validate
(the stream text "ab" is not covered by its empty match set). -/
def exPreNoMerge : RawTextPreprocessor :=
  ⟨[⟨exWa, []⟩], [⟨['a', 'b'], false, []⟩]⟩

/-- A preprocessor with one word "a" and one stream "a" it fully covers. -/
def exPreMerge : RawTextPreprocessor :=
  ⟨[⟨exWa, [⟨0, (), 0, 1⟩]⟩], [exStreamOk]⟩

/-- The first two matches of `exStreamZeroDenom` (both of the word `exWa`). -/
def exPickA : List (Match WordObj) := [⟨0, exWa, 0, 1⟩, ⟨0, exWa, 2, 3⟩]

/-- The first two matches of `exStreamZeroDenom2` (both of the word `exWb`). -/
def exPickB : List (Match WordObj) := [⟨0, exWb, 0, 1⟩, ⟨0, exWb, 2, 3⟩]


/-! ### The coverage counter, pointwise -/

/-- The increment loop over one interval preserves the counter's length. -/
theorem incr_fold_length (n start : Nat) (c : List Nat) :
    ((List.range' start n).foldl (fun c j => c.set j (c.getD j 0 + 1)) c).length
      = c.length := by
  induction n generalizing start c with
  | zero => rfl
  | succ n ih =>
    rw [List.range'_succ]
    simpa [List.foldl_cons] using ih (start + 1) (c.set start (c.getD start 0 + 1))

/-- The increment loop over one interval, read at one in-range position:
it adds 1 exactly when the position lies in the interval. -/
theorem incr_fold_getD (n start : Nat) (c : List Nat) (ix : Nat) (hix : ix < c.length) :
    ((List.range' start n).foldl (fun c j => c.set j (c.getD j 0 + 1)) c).getD ix 0
      = c.getD ix 0 + (if start ≤ ix ∧ ix < start + n then 1 else 0) := by
  induction n generalizing start c with
  | zero => simp
  | succ n ih =>
    rw [List.range'_succ]
    simp only [List.foldl_cons]
    rw [ih (start + 1) (c.set start (c.getD start 0 + 1)) (by simpa using hix)]
    have hset : (c.set start (c.getD start 0 + 1)).getD ix 0
        = if start = ix then c.getD ix 0 + 1 else c.getD ix 0 := by
      rw [List.getD_eq_getElem?_getD, List.getElem?_set]
      by_cases h : start = ix
      · subst h
        simp [hix, List.getD_eq_getElem?_getD]
      · simp [h, List.getD_eq_getElem?_getD]
    rw [hset]
    split_ifs <;> omega

/-- `buildCounter` preserves the stream's length. -/
theorem buildCounter_length (s : Stream) («matches» : List (Match WordObj)) :
    (s.buildCounter «matches»).length = s._stream.length := by
  unfold Stream.buildCounter
  have h : ∀ (ms : List (Match WordObj)) (c : List Nat),
      (ms.foldl (fun counter m =>
        (List.range' m.start (m.«end» - m.start)).foldl
          (fun c ix => c.set ix (c.getD ix 0 + 1)) counter) c).length = c.length := by
    intro ms
    induction ms with
    | nil => intro c; rfl
    | cons m ms ih =>
      intro c
      simp only [List.foldl_cons]
      rw [ih, incr_fold_length]
  rw [h]
  simp

/-- The built counter, read at an in-range position, is the number of
matches covering that position. -/
theorem buildCounter_getD (s : Stream) («matches» : List (Match WordObj))
    (ix : Nat) (hix : ix < s._stream.length) :
    (s.buildCounter «matches»).getD ix 0 = covCount «matches» ix := by
  unfold Stream.buildCounter
  have h : ∀ (ms : List (Match WordObj)) (c : List Nat), ix < c.length →
      (ms.foldl (fun counter m =>
        (List.range' m.start (m.«end» - m.start)).foldl
          (fun c ix => c.set ix (c.getD ix 0 + 1)) counter) c).getD ix 0
        = c.getD ix 0 + covCount ms ix := by
    intro ms
    induction ms with
    | nil => intro c _; simp [covCount]
    | cons m ms ih =>
      intro c hc
      simp only [List.foldl_cons]
      rw [ih _ (by rw [incr_fold_length]; exact hc), incr_fold_getD _ _ _ _ hc]
      have hcnt : covCount (m :: ms) ix
          = covCount ms ix + if m.start ≤ ix ∧ ix < m.«end» then 1 else 0 := by
        rw [covCount, List.countP_cons, ← covCount]
        by_cases h : m.start ≤ ix ∧ ix < m.«end» <;> simp [h]
      rw [hcnt]
      split_ifs <;> omega
  rw [h _ _ (by simpa using hix)]
  simp [List.getD_eq_getElem?_getD]

/-- The acceptance test of `_may_reconstruct_by`, for a non-empty match set,
is exactly the pointwise `goodCoverage` condition. -/
theorem may_reconstruct_iff (s : Stream) («matches» : List (Match WordObj))
    (hne : «matches» ≠ []) :
    s._may_reconstruct_by «matches» = true ↔ goodCoverage s «matches» := by
  unfold Stream._may_reconstruct_by
  rw [if_neg (by simpa using hne)]
  simp only [List.all_eq_true, List.mem_range]
  constructor
  · intro hall ix hix
    have h := hall ix hix
    rw [buildCounter_getD s «matches» ix hix] at h
    constructor
    · by_contra hgt
      rw [if_pos (by omega)] at h
      exact Bool.false_ne_true h
    · intro h0
      rw [if_neg (by omega)] at h
      by_contra hch
      rw [if_pos (by rw [Bool.and_eq_true, beq_iff_eq, bne_iff_ne]; exact ⟨h0, hch⟩)] at h
      exact Bool.false_ne_true h
  · intro hgood ix hix
    obtain ⟨h1, h2⟩ := hgood ix hix
    rw [buildCounter_getD s «matches» ix hix]
    rw [if_neg (by omega)]
    rw [if_neg]
    simp only [Bool.and_eq_true, beq_iff_eq, bne_iff_ne, not_and, ne_eq, not_not]
    exact h2

/-- If two positions of a list both satisfy a predicate, the predicate's
count is at least 2. -/
theorem two_le_countP {α : Type} (d : α) (p : α → Bool) :
    ∀ (l : List α) (i j : Nat), i < j → j < l.length →
      p (l.getD i d) = true → p (l.getD j d) = true → 2 ≤ l.countP p := by
  intro l
  induction l with
  | nil => intro i j _ hj _ _; simp at hj
  | cons a t ih =>
    intro i j hij hj hpi hpj
    have hj1 : j - 1 < t.length := by simp at hj; omega
    have hj' : (a :: t).getD j d = t.getD (j - 1) d := by
      cases j with
      | zero => omega
      | succ j => simp [List.getD_cons_succ]
    rw [List.countP_cons]
    rcases Nat.eq_zero_or_pos i with hi0 | hipos
    · subst hi0
      rw [List.getD_cons_zero] at hpi
      rw [if_pos hpi]
      have hmem : t.getD (j - 1) d ∈ t := by
        rw [List.getD_eq_getElem t d hj1]
        exact List.getElem_mem _
      have h1 : 1 ≤ t.countP p := by
        rw [Nat.one_le_iff_ne_zero]
        intro hz
        exact (List.countP_eq_zero.1 hz) _ hmem (hj' ▸ hpj)
      omega
    · have hi' : (a :: t).getD i d = t.getD (i - 1) d := by
        cases i with
        | zero => omega
        | succ i => simp [List.getD_cons_succ]
      rw [hi'] at hpi
      rw [hj'] at hpj
      have := ih (i - 1) (j - 1) (by omega) hj1 hpi hpj
      omega

/-- Under `goodCoverage`, the matched intervals are pairwise disjoint:
no in-bounds position lies in the intervals of two distinct matches. -/
theorem goodCoverage_disjoint (s : Stream) («matches» : List (Match WordObj))
    (hb : ∀ m ∈ «matches», m.«end» ≤ s._stream.length)
    (hgood : goodCoverage s «matches») :
    ∀ i j, i < j → j < «matches».length → ∀ ix,
      («matches».getD i default).start ≤ ix → ix < («matches».getD i default).«end» →
      ¬((«matches».getD j default).start ≤ ix ∧ ix < («matches».getD j default).«end») := by
  intro i j hij hj ix hi1 hi2 ⟨hj1, hj2⟩
  have hixlen : ix < s._stream.length := by
    have hmem : «matches».getD j default ∈ «matches» := by
      rw [List.getD_eq_getElem _ _ hj]
      exact List.getElem_mem _
    exact Nat.lt_of_lt_of_le hj2 (hb _ hmem)
  have h2 : 2 ≤ covCount «matches» ix := by
    apply two_le_countP default _ «matches» i j hij hj
    · simp only [decide_eq_true_eq]
      exact ⟨hi1, hi2⟩
    · simp only [decide_eq_true_eq]
      exact ⟨hj1, hj2⟩
  have := (hgood ix hixlen).1
  omega

/-- Under `goodCoverage` (and in-bounds matches), rebuilding the stream from
the matched substrings and spaces reproduces the stream exactly. -/
theorem goodCoverage_reconstruct (s : Stream) («matches» : List (Match WordObj))
    (hb : ∀ m ∈ «matches», m.«end» ≤ s._stream.length)
    (hgood : goodCoverage s «matches») :
    reconstructOf s «matches» = s._stream := by
  apply List.ext_getElem
  · simp [reconstructOf]
  · intro ix h1 h2
    have hix : ix < s._stream.length := h2
    simp only [reconstructOf]
    rw [List.getElem_map, List.getElem_range]
    rcases hfind : «matches».find? (fun m => decide (m.start ≤ ix ∧ ix < m.«end»)) with
      _ | ⟨m⟩ <;> rw [hfind]
    · have hnone := List.find?_eq_none.1 hfind
      have h0 : covCount «matches» ix = 0 := by
        rw [covCount, List.countP_eq_zero]
        exact hnone
      have := (hgood ix hix).2 h0
      rw [List.getD_eq_getElem _ _ hix] at this
      exact this.symm
    · have hpred := List.find?_some hfind
      simp only [decide_eq_true_eq] at hpred
      obtain ⟨hs, he⟩ := hpred
      have hmem := List.mem_of_find?_eq_some hfind
      have hend := hb m hmem
      show ((s._stream.drop m.start).take (m.«end» - m.start)).getD (ix - m.start) ' '
        = s._stream[ix]
      rw [List.getD_eq_getElem?_getD, List.getElem?_take, List.getElem?_drop]
      rw [if_pos (by omega)]
      have : m.start + (ix - m.start) = ix := by omega
      rw [this]
      rw [List.getElem?_eq_getElem hix]
      rfl

/-- C1: for every stream and every non-empty candidate match set (with
intervals inside the stream), the coverage validator accepts iff the
per-character coverage counter never exceeds 1 and every position with
counter 0 holds a space; consequently, for any accepted set, the matched
intervals are pairwise disjoint and rebuilding the stream from the matched
substrings (in interval order) and the inter-match spaces reproduces the
stream exactly. -/
theorem validator_correct (s : Stream) («matches» : List (Match WordObj))
    (hne : «matches» ≠ []) (hb : ∀ m ∈ «matches», m.«end» ≤ s._stream.length) :
    (s._may_reconstruct_by «matches» = true ↔ goodCoverage s «matches»)
    ∧ (s._may_reconstruct_by «matches» = true →
        (∀ i j, i < j → j < «matches».length → ∀ ix,
          («matches».getD i default).start ≤ ix → ix < («matches».getD i default).«end» →
          ¬((«matches».getD j default).start ≤ ix ∧ ix < («matches».getD j default).«end»))
        ∧ reconstructOf s «matches» = s._stream) := by
  refine ⟨may_reconstruct_iff s «matches» hne, fun hacc => ?_⟩
  have hgood := (may_reconstruct_iff s «matches» hne).1 hacc
  exact ⟨goodCoverage_disjoint s «matches» hb hgood,
    goodCoverage_reconstruct s «matches» hb hgood⟩

/-- Witness for `validator_correct`, at scenario A ("ab cd"). -/
theorem validator_correct_witness :
    (exStreamA.«matches» ≠ []
      ∧ (∀ m ∈ exStreamA.«matches», m.«end» ≤ exStreamA._stream.length))
    ∧ ((exStreamA._may_reconstruct_by exStreamA.«matches» = true
        ↔ goodCoverage exStreamA exStreamA.«matches»)
      ∧ (exStreamA._may_reconstruct_by exStreamA.«matches» = true →
          (∀ i j, i < j → j < exStreamA.«matches».length → ∀ ix,
            (exStreamA.«matches».getD i default).start ≤ ix →
            ix < (exStreamA.«matches».getD i default).«end» →
            ¬((exStreamA.«matches».getD j default).start ≤ ix
              ∧ ix < (exStreamA.«matches».getD j default).«end»))
          ∧ reconstructOf exStreamA exStreamA.«matches» = exStreamA._stream)) :=
  ⟨⟨by simp [exStreamA], by decide⟩,
    validator_correct exStreamA exStreamA.«matches» (by simp [exStreamA]) (by decide)⟩

/-- C10: the coverage validator returns `false` for an empty match set on
every stream, even one made entirely of spaces, so a stream with no
candidate matches never validates. -/
theorem validator_empty_false (s : Stream) : s._may_reconstruct_by [] = false := by
  simp [Stream._may_reconstruct_by]

/-! ### The cached mergeable flag -/

/-- If `may_merge` answers `true`, the updated stream's cached flag is set. -/
theorem may_merge_true_flag (s : Stream) (h : (s.may_merge).1 = true) :
    (s.may_merge).2._may_merge = true := by
  unfold Stream.may_merge at h ⊢
  by_cases hs : s._may_merge
  · simp [hs]
  · simp only [hs, if_false, Bool.false_eq_true] at h ⊢
    simpa using h

/-- A stream whose cached flag is set answers `true` immediately. -/
theorem may_merge_of_flag (s : Stream) (h : s._may_merge = true) :
    (s.may_merge).1 = true := by
  unfold Stream.may_merge
  simp [h]

/-- `may_merge` never changes the match list. -/
theorem may_merge_matches (s : Stream) : (s.may_merge).2.«matches» = s.«matches» := by
  unfold Stream.may_merge
  by_cases hs : s._may_merge <;> simp [hs]

/-- `may_merge` never changes the stream text. -/
theorem may_merge_stream (s : Stream) : (s.may_merge).2._stream = s._stream := by
  unfold Stream.may_merge
  by_cases hs : s._may_merge <;> simp [hs]

/-- C6: the cached mergeable flag is sticky.  Once `may_merge` has answered
`true`, every later call answers `true` without looking at the match set —
even after the match set is replaced by an arbitrary other one — while with
the flag still unset `may_merge` is computed fresh from the current match
set by the coverage validator. -/
theorem may_merge_sticky (s : Stream) (ms : List (Match WordObj)) :
    ((s.may_merge).1 = true →
      (({ (s.may_merge).2 with «matches» := ms }).may_merge).1 = true)
    ∧ (s._may_merge = false →
      (s.may_merge).1 = s._may_reconstruct_by s.«matches») := by
  constructor
  · intro h
    have hflag := may_merge_true_flag s h
    exact may_merge_of_flag _ hflag
  · intro h
    unfold Stream.may_merge
    simp [h]

/-- Witness for `may_merge_sticky`: a stream that validates once keeps
answering `true` after its match list is emptied, and a fresh stream
computes the validator's verdict. -/
theorem may_merge_sticky_witness :
    ((exStreamOk.may_merge).1 = true
      ∧ (({ (exStreamOk.may_merge).2 with «matches» := [] }).may_merge).1 = true)
    ∧ (exStreamOk._may_merge = false
      ∧ (exStreamOk.may_merge).1 = exStreamOk._may_reconstruct_by exStreamOk.«matches») :=
  ⟨⟨by decide, (may_merge_sticky exStreamOk []).1 (by decide)⟩,
    ⟨by decide, (may_merge_sticky exStreamOk []).2 (by decide)⟩⟩

/-! ### The outlier-search floor -/

/-- C8: with fewer than 3 candidate matches, `discard_outliers` returns
failure immediately and leaves the stream untouched. -/
theorem discard_outliers_floor (s : Stream) (h : s.«matches».length < 3) :
    s.discard_outliers = .ok (false, s) := by
  unfold Stream.discard_outliers
  rw [if_pos h]

/-- Witness for `discard_outliers_floor`, on a stream with two matches. -/
theorem discard_outliers_floor_witness :
    exStreamTwo.«matches».length < 3
    ∧ exStreamTwo.discard_outliers = .ok (false, exStreamTwo) :=
  ⟨by decide, discard_outliers_floor exStreamTwo (by decide)⟩

/-! ### The subsequence enumeration of the outlier search -/

/-- Binding an `ok` value in `Except`. -/
theorem except_bind_ok {ε α β : Type} (v : α) (f : α → Except ε β) :
    (Except.ok v : Except ε α) >>= f = f v := rfl

/-- Binding an error in `Except` propagates the error. -/
theorem except_bind_error {ε α β : Type} (e : ε) (f : α → Except ε β) :
    (Except.error e : Except ε α) >>= f = .error e := rfl

/-- `combos k l` enumerates exactly the order-preserving subsequences of
`l` of length `k`. -/
theorem combos_mem {α : Type} : ∀ (k : Nat) (l e : List α),
    e ∈ combos k l ↔ e.Sublist l ∧ e.length = k := by
  intro k l
  induction l generalizing k with
  | nil =>
    intro e
    cases k with
    | zero =>
      constructor
      · intro h
        simp only [combos, List.mem_singleton] at h
        subst h
        exact ⟨List.Sublist.refl _, rfl⟩
      · rintro ⟨h1, h2⟩
        simp only [combos, List.mem_singleton]
        exact List.length_eq_zero.1 h2
    | succ k =>
      constructor
      · intro h
        simp [combos] at h
      · rintro ⟨h1, h2⟩
        rw [List.sublist_nil] at h1
        subst h1
        simp at h2
  | cons x xs ih =>
    intro e
    cases k with
    | zero =>
      constructor
      · intro h
        simp only [combos, List.mem_singleton] at h
        subst h
        exact ⟨List.nil_sublist _, rfl⟩
      · rintro ⟨h1, h2⟩
        simp only [combos, List.mem_singleton]
        exact List.length_eq_zero.1 h2
    | succ k =>
      constructor
      · intro h
        simp only [combos, List.mem_append, List.mem_map] at h
        rcases h with ⟨e', he', rfl⟩ | h
        · have := (ih k e').1 he'
          exact ⟨List.cons_sublist_cons.2 this.1 |>.trans
              (List.sublist_cons_self x xs |> fun _ => List.Sublist.refl _) |>.trans
              (List.Sublist.refl _),
            by simp [this.2]⟩
        · have := (ih (k + 1) e).1 h
          exact ⟨this.1.trans (List.sublist_cons_self x xs), this.2⟩
      · rintro ⟨h1, h2⟩
        rw [List.sublist_cons_iff] at h1
        simp only [combos, List.mem_append, List.mem_map]
        rcases h1 with h1 | ⟨r, rfl, hr⟩
        · exact Or.inr ((ih (k + 1) e).2 ⟨h1, h2⟩)
        · refine Or.inl ⟨r, (ih k r).2 ⟨hr, ?_⟩, rfl⟩
          simpa using h2

/-- The centroid list is the match list mapped through `centroidOf`. -/
theorem centroids_eq (s : Stream) : s.centroids = s.«matches».map centroidOf := rfl

/-- Zipping a list with its own image pairs every element with its image. -/
theorem zip_map_self {α β : Type} (f : α → β) :
    ∀ l : List α, l.zip (l.map f) = l.map (fun a => (a, f a)) := by
  intro l
  induction l with
  | nil => rfl
  | cons a t ih => simp [ih]

/-- Projecting the first components back out of element-image pairs. -/
theorem map_fst_pair {α β : Type} (f : α → β) (l : List α) :
    (l.map (fun a => (a, f a))).map Prod.fst = l := by
  induction l with
  | nil => rfl
  | cons a t ih => simp [ih]

/-- Projecting the second components out of element-image pairs. -/
theorem map_snd_pair {α β : Type} (f : α → β) (l : List α) :
    (l.map (fun a => (a, f a))).map Prod.snd = l.map f := by
  induction l with
  | nil => rfl
  | cons a t ih => simp [ih]

/-- Zipping the match list with its centroids pairs every match with its own
centroid. -/
theorem zip_centroids (s : Stream) :
    s.«matches».zip s.centroids = s.«matches».map (fun m => (m, centroidOf m)) := by
  rw [centroids_eq]
  exact zip_map_self centroidOf _

/-- Membership in the enumeration of `discard_outliers`: exactly the
subsequences of the zipped match list of length 2 to count-1. -/
theorem mem_enum_picks (s : Stream) (h3 : 3 ≤ s.«matches».length)
    (pick : List (Match WordObj × Point)) :
    pick ∈ s.enum_picks ↔
      pick.Sublist (s.«matches».zip s.centroids)
        ∧ 2 ≤ pick.length ∧ pick.length < s.«matches».length := by
  unfold Stream.enum_picks
  rw [List.mem_flatMap]
  constructor
  · rintro ⟨k, hk, hp⟩
    rw [List.mem_range'] at hk
    obtain ⟨i, hi, rfl⟩ := hk
    have h := (combos_mem _ _ pick).1 hp
    exact ⟨h.1, by omega, by omega⟩
  · rintro ⟨hs, h2, hlt⟩
    refine ⟨pick.length, ?_, (combos_mem _ _ pick).2 ⟨hs, rfl⟩⟩
    rw [List.mem_range']
    exact ⟨pick.length - 2, by omega, by omega⟩

/-- The match-lists produced by the enumeration are exactly the
order-preserving subsequences of the stream's match list of length 2 to
count-1. -/
theorem exists_pick_iff (s : Stream) (h3 : 3 ≤ s.«matches».length)
    (ms : List (Match WordObj)) :
    (∃ pick ∈ s.enum_picks, pick.map Prod.fst = ms) ↔
      (ms.Sublist s.«matches» ∧ 2 ≤ ms.length ∧ ms.length < s.«matches».length) := by
  constructor
  · rintro ⟨pick, hp, rfl⟩
    rw [mem_enum_picks s h3] at hp
    obtain ⟨hsub, h2, hlt⟩ := hp
    rw [zip_centroids] at hsub
    obtain ⟨l', hl', rfl⟩ := List.sublist_map_iff.1 hsub
    have hfst : (l'.map (fun m => (m, centroidOf m))).map Prod.fst = l' :=
      map_fst_pair _ _
    rw [hfst]
    simp only [List.length_map] at h2 hlt
    exact ⟨hl', h2, hlt⟩
  · rintro ⟨hsub, h2, hlt⟩
    refine ⟨ms.map (fun m => (m, centroidOf m)), ?_, map_fst_pair _ _⟩
    rw [mem_enum_picks s h3, zip_centroids]
    exact ⟨hsub.map _, by simpa using h2, by simpa using hlt⟩

/-! ### The regression score and the search loop -/

/-- Division by a non-zero value succeeds. -/
theorem pyDiv_ok (a b : ℚ) (h : b ≠ 0) : pyDiv a b = .ok (a / b) := by
  unfold pyDiv
  rw [if_neg h]

/-- Division by zero raises. -/
theorem pyDiv_zero (a : ℚ) : pyDiv a 0 = .error .zeroDivisionError := by
  unfold pyDiv
  rw [if_pos rfl]

/-- The only error `pyDiv` raises is `ZeroDivisionError`. -/
theorem pyDiv_error (a b : ℚ) (e : PyErr) (h : pyDiv a b = .error e) :
    e = .zeroDivisionError := by
  unfold pyDiv at h
  by_cases hb : b = 0
  · rw [if_pos hb] at h
    cases h
    rfl
  · rw [if_neg hb] at h
    exact Except.noConfusion h

/-- With a non-empty point list and a non-zero denominator, the regression
succeeds and yields `scoreOf`. -/
theorem regressionScore_ok (points : List Point) (n : Nat) (hn : n = points.length)
    (h0 : points.length ≠ 0) (hden : denomOf points ≠ 0) :
    regressionScore points n = .ok (scoreOf points) := by
  subst hn
  have hl : ((points.length : ℚ)) ≠ 0 := Nat.cast_ne_zero.2 h0
  unfold regressionScore
  rw [pyDiv_ok _ _ hl]
  simp only [except_bind_ok]
  rw [pyDiv_ok _ _ hl]
  simp only [except_bind_ok]
  have hmx : (points.map Point.x).sum / ((points.length : ℚ))
      = meanOf (points.map Point.x) := by
    rw [meanOf, List.length_map]
  have hmy : (points.map Point.y).sum / ((points.length : ℚ))
      = meanOf (points.map Point.y) := by
    rw [meanOf, List.length_map]
  rw [hmx, hmy]
  rw [show (points.map (fun c => (c.x - meanOf (points.map Point.x)) ^ 2)).sum
      = denomOf points from rfl]
  rw [pyDiv_ok _ _ hden]
  simp only [except_bind_ok]
  rfl

/-- With a zero denominator the regression raises `ZeroDivisionError`. -/
theorem regressionScore_zero_denom (points : List Point) (n : Nat)
    (hn : n = points.length) (hden : denomOf points = 0) :
    regressionScore points n = .error .zeroDivisionError := by
  subst hn
  by_cases h0 : points.length = 0
  · unfold regressionScore
    rw [h0]
    rw [show ((0 : Nat) : ℚ) = 0 from by simp, pyDiv_zero, except_bind_error]
  · have hl : ((points.length : ℚ)) ≠ 0 := Nat.cast_ne_zero.2 h0
    unfold regressionScore
    rw [pyDiv_ok _ _ hl]
    simp only [except_bind_ok]
    rw [pyDiv_ok _ _ hl]
    simp only [except_bind_ok]
    have hmx : (points.map Point.x).sum / ((points.length : ℚ))
        = meanOf (points.map Point.x) := by
      rw [meanOf, List.length_map]
    rw [hmx]
    rw [show (points.map (fun c => (c.x - meanOf (points.map Point.x)) ^ 2)).sum
        = denomOf points from rfl]
    rw [hden, pyDiv_zero, except_bind_error]

/-- The only error the regression raises is `ZeroDivisionError`. -/
theorem regressionScore_error (points : List Point) (n : Nat) (e : PyErr)
    (h : regressionScore points n = .error e) : e = .zeroDivisionError := by
  unfold regressionScore at h
  cases h1 : pyDiv (points.map Point.x).sum n with
  | error e1 =>
    rw [h1, except_bind_error] at h
    cases h
    exact pyDiv_error _ _ _ h1
  | ok v1 =>
    rw [h1] at h
    simp only [except_bind_ok] at h
    cases h2 : pyDiv (points.map Point.y).sum n with
    | error e2 =>
      rw [h2, except_bind_error] at h
      cases h
      exact pyDiv_error _ _ _ h2
    | ok v2 =>
      rw [h2] at h
      simp only [except_bind_ok] at h
      cases h3 : pyDiv ((points.map (fun c => (c.x - v1) * (c.y - v2))).sum)
          ((points.map (fun c => (c.x - v1) ^ 2)).sum) with
      | error e3 =>
        rw [h3, except_bind_error] at h
        cases h
        exact pyDiv_error _ _ _ h3
      | ok v3 =>
        rw [h3] at h
        simp only [except_bind_ok] at h
        exact Except.noConfusion h

/-- A valid pick is never empty (the validator rejects the empty set). -/
theorem validPick_ne_nil (s : Stream) (pick : List (Match WordObj × Point))
    (h : validPick s pick) : pick ≠ [] := by
  intro hnil
  subst hnil
  have h' : s._may_reconstruct_by [] = true := h
  simp [Stream._may_reconstruct_by] at h'

/-- A pick rejected by the validator leaves the accumulator untouched. -/
theorem outlierStep_invalid (s : Stream) (acc : Option (ℚ × List (Match WordObj × Point)))
    (pick : List (Match WordObj × Point))
    (h : s._may_reconstruct_by (pick.map Prod.fst) = false) :
    s.outlierStep acc pick = .ok acc := by
  unfold Stream.outlierStep
  rw [if_pos h]
  rfl

/-- A valid pick with a zero regression denominator raises
`ZeroDivisionError`. -/
theorem outlierStep_zero_denom (s : Stream)
    (acc : Option (ℚ × List (Match WordObj × Point)))
    (pick : List (Match WordObj × Point))
    (hv : validPick s pick) (hden : denomOf (pick.map Prod.snd) = 0) :
    s.outlierStep acc pick = .error .zeroDivisionError := by
  have hv' : s._may_reconstruct_by (pick.map Prod.fst) = true := hv
  unfold Stream.outlierStep
  rw [if_neg (by simp [hv'])]
  rw [regressionScore_zero_denom (pick.map Prod.snd) pick.length (by simp) hden,
    except_bind_error]
  rfl

/-- The only error one search step raises is `ZeroDivisionError`. -/
theorem outlierStep_error (s : Stream) (acc : Option (ℚ × List (Match WordObj × Point)))
    (pick : List (Match WordObj × Point)) (e : PyErr)
    (h : s.outlierStep acc pick = .error e) : e = .zeroDivisionError := by
  unfold Stream.outlierStep at h
  by_cases hv : s._may_reconstruct_by (pick.map Prod.fst) = false
  · rw [if_pos hv] at h
    exact Except.noConfusion h
  · rw [if_neg hv] at h
    cases hr : regressionScore (pick.map Prod.snd) pick.length with
    | error e1 =>
      rw [hr, except_bind_error] at h
      cases h
      exact regressionScore_error _ _ _ hr
    | ok a =>
      rw [hr] at h
      simp only [except_bind_ok] at h
      rcases acc with _ | ⟨b, w⟩
      · exact Except.noConfusion h
      · by_cases hab : a < b
        · rw [show (match some (b, w) with
            | none => (return some (a, pick) : Except PyErr _)
            | some (best_horizontal, best) =>
              if a < best_horizontal then return some (a, pick)
              else return some (best_horizontal, best)) =
              (if a < b then (return some (a, pick) : Except PyErr _)
               else return some (b, w)) from rfl, if_pos hab] at h
          exact Except.noConfusion h
        · rw [show (match some (b, w) with
            | none => (return some (a, pick) : Except PyErr _)
            | some (best_horizontal, best) =>
              if a < best_horizontal then return some (a, pick)
              else return some (best_horizontal, best)) =
              (if a < b then (return some (a, pick) : Except PyErr _)
               else return some (b, w)) from rfl, if_neg hab] at h
          exact Except.noConfusion h

/-- A valid pick with a non-zero denominator updates the accumulator to the
strictly better of the old best and the new score. -/
theorem outlierStep_valid (s : Stream) (acc : Option (ℚ × List (Match WordObj × Point)))
    (pick : List (Match WordObj × Point))
    (hv : validPick s pick) (hden : denomOf (pick.map Prod.snd) ≠ 0) :
    s.outlierStep acc pick = .ok (match acc with
      | none => some (scoreOf (pick.map Prod.snd), pick)
      | some (b, w) =>
        if scoreOf (pick.map Prod.snd) < b then some (scoreOf (pick.map Prod.snd), pick)
        else some (b, w)) := by
  have hv' : s._may_reconstruct_by (pick.map Prod.fst) = true := hv
  have hne : pick ≠ [] := validPick_ne_nil s pick hv
  have h0 : (pick.map Prod.snd).length ≠ 0 := by
    simp only [List.length_map]
    intro hz
    exact hne (List.length_eq_zero.1 hz)
  unfold Stream.outlierStep
  rw [if_neg (by simp [hv'])]
  rw [regressionScore_ok (pick.map Prod.snd) pick.length (by simp) h0 hden]
  simp only [except_bind_ok]
  rcases acc with _ | ⟨b, w⟩
  · rfl
  · by_cases hab : scoreOf (pick.map Prod.snd) < b
    · simp only [if_pos hab]
      rfl
    · simp only [if_neg hab]
      rfl

/-- If any pick of the list is valid with a zero regression denominator,
the whole search loop raises `ZeroDivisionError`. -/
theorem fold_error_of_zero_denom (s : Stream) :
    ∀ (L : List (List (Match WordObj × Point)))
      (acc : Option (ℚ × List (Match WordObj × Point))),
      (∃ pk ∈ L, validPick s pk ∧ denomOf (pk.map Prod.snd) = 0) →
      L.foldlM (s.outlierStep) acc = .error .zeroDivisionError := by
  intro L
  induction L with
  | nil => rintro acc ⟨pk, hmem, _⟩; simp at hmem
  | cons q L ih =>
    rintro acc ⟨pk, hmem, hv, hd⟩
    rw [List.foldlM_cons]
    rcases List.mem_cons.1 hmem with rfl | hmem'
    · rw [outlierStep_zero_denom s acc pk hv hd, except_bind_error]
    · cases hq : s.outlierStep acc q with
      | error e =>
        rw [except_bind_error]
        rw [outlierStep_error s acc q e hq]
      | ok acc' =>
        rw [except_bind_ok]
        exact ih acc' ⟨pk, hmem', hv, hd⟩

/-- The only error the search loop raises is `ZeroDivisionError`. -/
theorem fold_error_eq (s : Stream) :
    ∀ (L : List (List (Match WordObj × Point)))
      (acc : Option (ℚ × List (Match WordObj × Point))) (e : PyErr),
      L.foldlM (s.outlierStep) acc = .error e → e = .zeroDivisionError := by
  intro L
  induction L with
  | nil =>
    intro acc e h
    rw [List.foldlM_nil] at h
    exact Except.noConfusion h
  | cons q L ih =>
    intro acc e h
    rw [List.foldlM_cons] at h
    cases hq : s.outlierStep acc q with
    | error e1 =>
      rw [hq, except_bind_error] at h
      injection h with h'
      subst h'
      exact outlierStep_error s acc q _ hq
    | ok acc' =>
      rw [hq, except_bind_ok] at h
      exact ih acc' e h

/-- A valid pick with a non-zero denominator, on an empty accumulator,
installs itself as the new best. -/
theorem outlierStep_valid_none (s : Stream) (pick : List (Match WordObj × Point))
    (hv : validPick s pick) (hden : denomOf (pick.map Prod.snd) ≠ 0) :
    s.outlierStep none pick = .ok (some (scoreOf (pick.map Prod.snd), pick)) :=
  outlierStep_valid s none pick hv hden

/-- A valid pick with a non-zero denominator, on a non-empty accumulator,
replaces the best exactly when it strictly improves the score. -/
theorem outlierStep_valid_some (s : Stream) (b : ℚ)
    (w pick : List (Match WordObj × Point))
    (hv : validPick s pick) (hden : denomOf (pick.map Prod.snd) ≠ 0) :
    s.outlierStep (some (b, w)) pick
      = .ok (if scoreOf (pick.map Prod.snd) < b
          then some (scoreOf (pick.map Prod.snd), pick) else some (b, w)) :=
  outlierStep_valid s (some (b, w)) pick hv hden

/-- When every valid pick of the list has a non-zero denominator, the search
loop succeeds and its accumulator invariant is maintained. -/
theorem fold_good (s : Stream) :
    ∀ (L seen : List (List (Match WordObj × Point)))
      (acc : Option (ℚ × List (Match WordObj × Point))),
      GoodAcc s seen acc →
      (∀ q ∈ L, validPick s q → denomOf (q.map Prod.snd) ≠ 0) →
      ∃ res, L.foldlM (s.outlierStep) acc = .ok res ∧ GoodAcc s (seen ++ L) res := by
  intro L
  induction L with
  | nil =>
    intro seen acc hacc _
    exact ⟨acc, by rw [List.foldlM_nil]; rfl, by simpa using hacc⟩
  | cons pk L ih =>
    intro seen acc hacc hden
    rw [List.foldlM_cons]
    have happ : seen ++ pk :: L = (seen ++ [pk]) ++ L := by simp
    by_cases hv : validPick s pk
    · have hd : denomOf (pk.map Prod.snd) ≠ 0 := hden pk (by simp) hv
      rcases acc with _ | ⟨b, w⟩
      · rw [outlierStep_valid_none s pk hv hd, except_bind_ok]
        have hacc' : GoodAcc s (seen ++ [pk]) (some (scoreOf (pk.map Prod.snd), pk)) := by
          constructor
          · intro h
            exact Option.noConfusion h
          · intro a w' heq
            simp only [Option.some.injEq, Prod.mk.injEq] at heq
            obtain ⟨ha, hw⟩ := heq
            subst ha
            subst hw
            refine ⟨by simp, hv, rfl, ?_⟩
            intro q hq hqv
            rcases List.mem_append.1 hq with hq' | hq'
            · exact absurd hqv (hacc.1 rfl q hq')
            · rw [List.mem_singleton.1 hq']
        obtain ⟨res, hres, hgood⟩ := ih (seen ++ [pk]) _ hacc'
          (fun q hq hqv => hden q (by simp [hq]) hqv)
        exact ⟨res, hres, happ ▸ hgood⟩
      · obtain ⟨hwseen, hwv, hbeq, hbmin⟩ := hacc.2 b w rfl
        rw [outlierStep_valid_some s b w pk hv hd, except_bind_ok]
        by_cases hab : scoreOf (pk.map Prod.snd) < b
        · rw [if_pos hab]
          have hacc' : GoodAcc s (seen ++ [pk]) (some (scoreOf (pk.map Prod.snd), pk)) := by
            constructor
            · intro h
              exact Option.noConfusion h
            · intro a w' heq
              simp only [Option.some.injEq, Prod.mk.injEq] at heq
              obtain ⟨ha, hw⟩ := heq
              subst ha
              subst hw
              refine ⟨by simp, hv, rfl, ?_⟩
              intro q hq hqv
              rcases List.mem_append.1 hq with hq' | hq'
              · exact le_of_lt (lt_of_lt_of_le hab (hbmin q hq' hqv))
              · rw [List.mem_singleton.1 hq']
          obtain ⟨res, hres, hgood⟩ := ih (seen ++ [pk]) _ hacc'
            (fun q hq hqv => hden q (by simp [hq]) hqv)
          exact ⟨res, hres, happ ▸ hgood⟩
        · rw [if_neg hab]
          have hacc' : GoodAcc s (seen ++ [pk]) (some (b, w)) := by
            constructor
            · intro h
              exact Option.noConfusion h
            · intro a w' heq
              simp only [Option.some.injEq, Prod.mk.injEq] at heq
              obtain ⟨ha, hw⟩ := heq
              subst ha
              subst hw
              refine ⟨by simp [hwseen], hwv, hbeq, ?_⟩
              intro q hq hqv
              rcases List.mem_append.1 hq with hq' | hq'
              · exact hbmin q hq' hqv
              · rw [List.mem_singleton.1 hq']
                exact not_lt.1 hab
          obtain ⟨res, hres, hgood⟩ := ih (seen ++ [pk]) _ hacc'
            (fun q hq hqv => hden q (by simp [hq]) hqv)
          exact ⟨res, hres, happ ▸ hgood⟩
    · have hv' : s._may_reconstruct_by (pk.map Prod.fst) = false := by
        rcases Bool.eq_false_or_eq_true (s._may_reconstruct_by (pk.map Prod.fst)) with h | h
        · exact absurd h hv
        · exact h
      rw [outlierStep_invalid s acc pk hv', except_bind_ok]
      have hacc' : GoodAcc s (seen ++ [pk]) acc := by
        constructor
        · intro h q hq
          rcases List.mem_append.1 hq with hq' | hq'
          · exact hacc.1 h q hq'
          · rw [List.mem_singleton.1 hq']
            exact hv
        · intro a w' heq
          obtain ⟨hwseen, hwv, hbeq, hbmin⟩ := hacc.2 a w' heq
          refine ⟨by simp [hwseen], hwv, hbeq, ?_⟩
          intro q hq hqv
          rcases List.mem_append.1 hq with hq' | hq'
          · exact hbmin q hq' hqv
          · rw [List.mem_singleton.1 hq'] at hqv
            exact absurd hqv hv
      obtain ⟨res, hres, hgood⟩ := ih (seen ++ [pk]) _ hacc'
        (fun q hq hqv => hden q (by simp [hq]) hqv)
      exact ⟨res, hres, happ ▸ hgood⟩

/-- `Except.bind` on a success. -/
theorem except_bind_ok2 {ε α β : Type} (v : α) (f : α → Except ε β) :
    (Except.ok v : Except ε α).bind f = f v := rfl

/-- `Except.bind` on an error. -/
theorem except_bind_error2 {ε α β : Type} (e : ε) (f : α → Except ε β) :
    (Except.error e : Except ε α).bind f = .error e := rfl

/-- The only error `discard_outliers` raises is `ZeroDivisionError`. -/
theorem discard_outliers_error_eq (s : Stream) (e : PyErr)
    (h : s.discard_outliers = .error e) : e = .zeroDivisionError := by
  unfold Stream.discard_outliers at h
  by_cases h3 : s.«matches».length < 3
  · rw [if_pos h3] at h
    exact Except.noConfusion h
  · rw [if_neg h3] at h
    cases hf : s.enum_picks.foldlM (s.outlierStep) none with
    | error e1 =>
      rw [hf, except_bind_error2] at h
      injection h with h'
      subst h'
      exact fold_error_eq s _ _ _ hf
    | ok best =>
      rw [hf, except_bind_ok2] at h
      rcases best with _ | ⟨a, bp⟩
      · exact Except.noConfusion h
      · exact Except.noConfusion h

/-- If some enumerated pick is valid with a zero regression denominator,
`discard_outliers` raises `ZeroDivisionError`. -/
theorem discard_outliers_zero_denom (s : Stream) (h3 : 3 ≤ s.«matches».length)
    (pick : List (Match WordObj × Point)) (hp : pick ∈ s.enum_picks)
    (hv : validPick s pick) (hden : denomOf (pick.map Prod.snd) = 0) :
    s.discard_outliers = .error .zeroDivisionError := by
  unfold Stream.discard_outliers
  rw [if_neg (by omega)]
  rw [fold_error_of_zero_denom s _ none ⟨pick, hp, hv, hden⟩, except_bind_error2]

/-- Subsequence form of the zero-denominator behaviour: if some
order-preserving subsequence of the match list of length 2..count-1 passes
the validator but its centroids share a single x-coordinate (zero regression
denominator), `discard_outliers` raises `ZeroDivisionError` instead of
skipping it. -/
theorem discard_zero_denom_sublist (s : Stream) (ms : List (Match WordObj))
    (h3 : 3 ≤ s.«matches».length) (hsub : ms.Sublist s.«matches»)
    (h2 : 2 ≤ ms.length) (hlt : ms.length < s.«matches».length)
    (hvalid : s._may_reconstruct_by ms = true)
    (hden : denomOf (ms.map centroidOf) = 0) :
    s.discard_outliers = .error .zeroDivisionError := by
  have hp : ms.map (fun m => (m, centroidOf m)) ∈ s.enum_picks := by
    rw [mem_enum_picks s h3, zip_centroids]
    exact ⟨hsub.map _, by simpa using h2, by simpa using hlt⟩
  have hv : validPick s (ms.map (fun m => (m, centroidOf m))) := by
    show s._may_reconstruct_by ((ms.map (fun m => (m, centroidOf m))).map Prod.fst) = true
    rw [map_fst_pair]
    exact hvalid
  have hden' : denomOf ((ms.map (fun m => (m, centroidOf m))).map Prod.snd) = 0 := by
    rw [map_snd_pair]
    exact hden
  exact discard_outliers_zero_denom s h3 _ hp hv hden'

/-- Full characterisation of a successful run of `discard_outliers` when
every enumerated valid pick has a non-zero denominator: failure with the
stream untouched when no pick validates, otherwise success with a winner of
globally minimal score installed as the new match list. -/
theorem discard_outliers_char (s : Stream) (h3 : 3 ≤ s.«matches».length)
    (hden : ∀ q ∈ s.enum_picks, validPick s q → denomOf (q.map Prod.snd) ≠ 0) :
    ((∀ q ∈ s.enum_picks, ¬ validPick s q) → s.discard_outliers = .ok (false, s))
    ∧ (∀ pick0 ∈ s.enum_picks, validPick s pick0 →
        ∃ winner ∈ s.enum_picks, validPick s winner
          ∧ (∀ q ∈ s.enum_picks, validPick s q →
              scoreOf (winner.map Prod.snd) ≤ scoreOf (q.map Prod.snd))
          ∧ s.discard_outliers
              = .ok (true, { s with «matches» := winner.map Prod.fst })) := by
  have hinit : GoodAcc s [] none := by
    constructor
    · intro _ q hq
      simp at hq
    · intro a w h
      exact Option.noConfusion h
  obtain ⟨res, hres, hgood⟩ := fold_good s s.enum_picks [] none hinit hden
  rw [List.nil_append] at hgood
  constructor
  · intro hnone
    have hres_none : res = none := by
      rcases res with _ | ⟨a, w⟩
      · rfl
      · obtain ⟨hw, hwv, _, _⟩ := hgood.2 a w rfl
        exact absurd hwv (hnone w hw)
    subst hres_none
    unfold Stream.discard_outliers
    rw [if_neg (by omega), hres, except_bind_ok2]
  · intro pick0 hp0 hv0
    have hres_some : ∃ a w, res = some (a, w) := by
      rcases res with _ | ⟨a, w⟩
      · exact absurd hv0 (hgood.1 rfl pick0 hp0)
      · exact ⟨a, w, rfl⟩
    obtain ⟨a, w, rfl⟩ := hres_some
    obtain ⟨hw, hwv, haeq, hmin⟩ := hgood.2 a w rfl
    refine ⟨w, hw, hwv, fun q hq hqv => ?_, ?_⟩
    · have h := hmin q hq hqv
      rw [haeq] at h
      exact h
    · unfold Stream.discard_outliers
      rw [if_neg (by omega), hres, except_bind_ok2]

/-- Decomposing an enumerated pick into its underlying match subsequence. -/
theorem enum_pick_decomp (s : Stream) (h3 : 3 ≤ s.«matches».length)
    (q : List (Match WordObj × Point)) (hq : q ∈ s.enum_picks) :
    ∃ ms : List (Match WordObj), ms.Sublist s.«matches» ∧ 2 ≤ ms.length
      ∧ ms.length < s.«matches».length
      ∧ q = ms.map (fun m => (m, centroidOf m)) := by
  rw [mem_enum_picks s h3, zip_centroids] at hq
  obtain ⟨hsub, h2, hlt⟩ := hq
  obtain ⟨ms, hms, rfl⟩ := List.sublist_map_iff.1 hsub
  exact ⟨ms, hms, by simpa using h2, by simpa using hlt, rfl⟩

/-- C3 (amended): if an enumerated order-preserving subsequence passes the
coverage validator but its regression denominator `Σ(x-mean_x)^2` is 0,
`discard_outliers` raises `ZeroDivisionError` (the subsequence is not
skipped and the search does not continue). -/
theorem discard_outliers_zero_denom_raises (s : Stream) (ms : List (Match WordObj))
    (h3 : 3 ≤ s.«matches».length) (hsub : ms.Sublist s.«matches»)
    (h2 : 2 ≤ ms.length) (hlt : ms.length < s.«matches».length)
    (hvalid : s._may_reconstruct_by ms = true)
    (hden : denomOf (ms.map centroidOf) = 0) :
    s.discard_outliers = .error .zeroDivisionError :=
  discard_zero_denom_sublist s ms h3 hsub h2 hlt hvalid hden

/-- Witness for `discard_outliers_zero_denom_raises` on the stream "b b". -/
theorem discard_outliers_zero_denom_raises_witness :
    (3 ≤ exStreamZeroDenom2.«matches».length
      ∧ exPickB.Sublist exStreamZeroDenom2.«matches»
      ∧ 2 ≤ exPickB.length
      ∧ exPickB.length < exStreamZeroDenom2.«matches».length
      ∧ exStreamZeroDenom2._may_reconstruct_by exPickB = true
      ∧ denomOf (exPickB.map centroidOf) = 0)
    ∧ exStreamZeroDenom2.discard_outliers = .error .zeroDivisionError := by
  have hsub : exPickB.Sublist exStreamZeroDenom2.«matches» := by
    show exPickB.Sublist [⟨0, exWb, 0, 1⟩, ⟨0, exWb, 2, 3⟩, ⟨1, exWbHigh, 0, 1⟩]
    rw [exPickB]
    simp
  have hden : denomOf (exPickB.map centroidOf) = 0 := by
    norm_num [denomOf, meanOf, centroidOf, exPickB, exWb]
  refine ⟨⟨by decide, hsub, by decide, by decide, by decide, hden⟩, ?_⟩
  exact discard_outliers_zero_denom_raises exStreamZeroDenom2 _ (by decide) hsub
    (by decide) (by decide) (by decide) hden

/-- Counterexample to the claim that a zero-denominator subsequence is
skipped without an error: on the stream "a a" the first enumerated
2-subsequence is valid, its two centroids share one x-coordinate, and
`discard_outliers` raises `ZeroDivisionError`. -/
theorem discard_outliers_not_skipped :
    (∃ ms : List (Match WordObj), ms.Sublist exStreamZeroDenom.«matches»
      ∧ 2 ≤ ms.length ∧ ms.length < exStreamZeroDenom.«matches».length
      ∧ exStreamZeroDenom._may_reconstruct_by ms = true
      ∧ denomOf (ms.map centroidOf) = 0)
    ∧ exStreamZeroDenom.discard_outliers = .error .zeroDivisionError := by
  have hsub : exPickA.Sublist exStreamZeroDenom.«matches» := by
    show exPickA.Sublist [⟨0, exWa, 0, 1⟩, ⟨0, exWa, 2, 3⟩, ⟨1, exWaHigh, 0, 1⟩]
    rw [exPickA]
    simp
  have hden : denomOf (exPickA.map centroidOf) = 0 := by
    norm_num [denomOf, meanOf, centroidOf, exPickA, exWa]
  refine ⟨⟨exPickA, hsub, by decide, by decide, by decide, hden⟩, ?_⟩
  exact discard_zero_denom_sublist exStreamZeroDenom _ (by decide) hsub
    (by decide) (by decide) (by decide) hden

/-- C2 (amended): for a stream with at least 3 candidate matches whose full
match set fails validation, and in which every enumerated valid subsequence
has a non-zero regression denominator (otherwise a `ZeroDivisionError`
propagates), `discard_outliers` (1) considers exactly the order-preserving
subsequences of the match list of every length from 2 to count-1; (2)
returns failure with the stream untouched when none of them validates; and
(3) otherwise succeeds, replacing the match list with a valid subsequence
of globally minimal score `|mean_y - b·mean_x|`. -/
theorem discard_outliers_spec (s : Stream)
    (h3 : 3 ≤ s.«matches».length)
    (hfail : s._may_reconstruct_by s.«matches» = false)
    (hden : ∀ ms : List (Match WordObj), ms.Sublist s.«matches» → 2 ≤ ms.length →
      ms.length < s.«matches».length → s._may_reconstruct_by ms = true →
      denomOf (ms.map centroidOf) ≠ 0) :
    (∀ ms : List (Match WordObj), (∃ pick ∈ s.enum_picks, pick.map Prod.fst = ms) ↔
      (ms.Sublist s.«matches» ∧ 2 ≤ ms.length ∧ ms.length < s.«matches».length))
    ∧ ((∀ ms : List (Match WordObj), ms.Sublist s.«matches» → 2 ≤ ms.length →
        ms.length < s.«matches».length → s._may_reconstruct_by ms = false) →
      s.discard_outliers = .ok (false, s))
    ∧ (∀ ms0 : List (Match WordObj), ms0.Sublist s.«matches» → 2 ≤ ms0.length →
        ms0.length < s.«matches».length → s._may_reconstruct_by ms0 = true →
      ∃ winner : List (Match WordObj), winner.Sublist s.«matches»
        ∧ 2 ≤ winner.length ∧ winner.length < s.«matches».length
        ∧ s._may_reconstruct_by winner = true
        ∧ (∀ ms : List (Match WordObj), ms.Sublist s.«matches» → 2 ≤ ms.length →
            ms.length < s.«matches».length → s._may_reconstruct_by ms = true →
            scoreOf (winner.map centroidOf) ≤ scoreOf (ms.map centroidOf))
        ∧ s.discard_outliers = .ok (true, { s with «matches» := winner })) := by
  have hdenE : ∀ q ∈ s.enum_picks, validPick s q → denomOf (q.map Prod.snd) ≠ 0 := by
    intro q hq hqv
    obtain ⟨ms, hsub, h2, hlt, rfl⟩ := enum_pick_decomp s h3 q hq
    have hqv' : s._may_reconstruct_by
        ((ms.map (fun m => (m, centroidOf m))).map Prod.fst) = true := hqv
    rw [map_fst_pair] at hqv'
    rw [map_snd_pair]
    exact hden ms hsub h2 hlt hqv'
  have hchar := discard_outliers_char s h3 hdenE
  refine ⟨exists_pick_iff s h3, ?_, ?_⟩
  · intro hall
    apply hchar.1
    intro q hq
    obtain ⟨ms, hsub, h2, hlt, rfl⟩ := enum_pick_decomp s h3 q hq
    intro hqv
    have hqv' : s._may_reconstruct_by
        ((ms.map (fun m => (m, centroidOf m))).map Prod.fst) = true := hqv
    rw [map_fst_pair, hall ms hsub h2 hlt] at hqv'
    exact Bool.false_ne_true hqv'
  · intro ms0 hsub0 h20 hlt0 hv0
    have hp0 : ms0.map (fun m => (m, centroidOf m)) ∈ s.enum_picks := by
      rw [mem_enum_picks s h3, zip_centroids]
      exact ⟨hsub0.map _, by simpa using h20, by simpa using hlt0⟩
    have hv0' : validPick s (ms0.map (fun m => (m, centroidOf m))) := by
      show s._may_reconstruct_by _ = true
      rw [map_fst_pair]
      exact hv0
    obtain ⟨winner, hwmem, hwv, hwmin, hweq⟩ := hchar.2 _ hp0 hv0'
    obtain ⟨msw, hsubw, h2w, hltw, rfl⟩ := enum_pick_decomp s h3 winner hwmem
    have hwv' : s._may_reconstruct_by msw = true := by
      have h : s._may_reconstruct_by
          ((msw.map (fun m => (m, centroidOf m))).map Prod.fst) = true := hwv
      rw [map_fst_pair] at h
      exact h
    refine ⟨msw, hsubw, h2w, hltw, hwv', ?_, ?_⟩
    · intro ms hsub h2 hlt hv
      have hpm : ms.map (fun m => (m, centroidOf m)) ∈ s.enum_picks := by
        rw [mem_enum_picks s h3, zip_centroids]
        exact ⟨hsub.map _, by simpa using h2, by simpa using hlt⟩
      have hvm : validPick s (ms.map (fun m => (m, centroidOf m))) := by
        show s._may_reconstruct_by _ = true
        rw [map_fst_pair]
        exact hv
      have h := hwmin _ hpm hvm
      rw [map_snd_pair, map_snd_pair] at h
      exact h
    · rw [map_fst_pair] at hweq
      exact hweq

/-- The eight subsequences of a three-element list. -/
theorem sublist_three {α : Type} (a b c : α) (l : List α) (h : l.Sublist [a, b, c]) :
    l = [] ∨ l = [a] ∨ l = [b] ∨ l = [c]
      ∨ l = [a, b] ∨ l = [a, c] ∨ l = [b, c] ∨ l = [a, b, c] := by
  rw [List.sublist_cons_iff] at h
  rcases h with h | ⟨r, rfl, hr⟩
  · rw [List.sublist_cons_iff] at h
    rcases h with h | ⟨r, rfl, hr⟩
    · rw [List.sublist_cons_iff] at h
      rcases h with h | ⟨r, rfl, hr⟩
      · rw [List.sublist_nil] at h
        subst h
        tauto
      · rw [List.sublist_nil] at hr
        subst hr
        tauto
    · rw [List.sublist_cons_iff] at hr
      rcases hr with hr | ⟨r', rfl, hr'⟩
      · rw [List.sublist_nil] at hr
        subst hr
        tauto
      · rw [List.sublist_nil] at hr'
        subst hr'
        tauto
  · rw [List.sublist_cons_iff] at hr
    rcases hr with hr | ⟨r', rfl, hr'⟩
    · rw [List.sublist_cons_iff] at hr
      rcases hr with hr | ⟨r'', rfl, hr''⟩
      · rw [List.sublist_nil] at hr
        subst hr
        tauto
      · rw [List.sublist_nil] at hr''
        subst hr''
        tauto
    · rw [List.sublist_cons_iff] at hr'
      rcases hr' with hr' | ⟨r'', rfl, hr''⟩
      · rw [List.sublist_nil] at hr'
        subst hr'
        tauto
      · rw [List.sublist_nil] at hr''
        subst hr''
        tauto

/-- Every 2-element subsequence of `exStreamOutlier`'s matches has a
non-zero regression denominator (their centroid x-coordinates differ). -/
theorem exStreamOutlier_denoms :
    ∀ ms : List (Match WordObj), ms.Sublist exStreamOutlier.«matches» →
      2 ≤ ms.length → ms.length < exStreamOutlier.«matches».length →
      exStreamOutlier._may_reconstruct_by ms = true →
      denomOf (ms.map centroidOf) ≠ 0 := by
  intro ms hsub h2 hlt _
  have hmseq : exStreamOutlier.«matches»
      = [⟨0, exWa, 0, 1⟩, ⟨1, exWbMid, 2, 3⟩, ⟨2, exWaFar, 0, 1⟩] := rfl
  rw [hmseq] at hsub
  rcases sublist_three _ _ _ ms hsub with h | h | h | h | h | h | h | h <;> subst h
  · simp at h2
  · simp at h2
  · simp at h2
  · simp at h2
  · norm_num [denomOf, meanOf, centroidOf, exWa, exWbMid]
  · norm_num [denomOf, meanOf, centroidOf, exWa, exWaFar]
  · norm_num [denomOf, meanOf, centroidOf, exWbMid, exWaFar]
  · rw [hmseq] at hlt
    simp at hlt

/-- Witness for `discard_outliers_spec`, on the stream "a b" with an
overlapping third candidate match. -/
theorem discard_outliers_spec_witness :
    (3 ≤ exStreamOutlier.«matches».length
      ∧ exStreamOutlier._may_reconstruct_by exStreamOutlier.«matches» = false
      ∧ (∀ ms : List (Match WordObj), ms.Sublist exStreamOutlier.«matches» →
          2 ≤ ms.length → ms.length < exStreamOutlier.«matches».length →
          exStreamOutlier._may_reconstruct_by ms = true →
          denomOf (ms.map centroidOf) ≠ 0))
    ∧ ((∀ ms : List (Match WordObj),
        (∃ pick ∈ exStreamOutlier.enum_picks, pick.map Prod.fst = ms) ↔
        (ms.Sublist exStreamOutlier.«matches» ∧ 2 ≤ ms.length
          ∧ ms.length < exStreamOutlier.«matches».length))
      ∧ ((∀ ms : List (Match WordObj), ms.Sublist exStreamOutlier.«matches» →
          2 ≤ ms.length → ms.length < exStreamOutlier.«matches».length →
          exStreamOutlier._may_reconstruct_by ms = false) →
        exStreamOutlier.discard_outliers = .ok (false, exStreamOutlier))
      ∧ (∀ ms0 : List (Match WordObj), ms0.Sublist exStreamOutlier.«matches» →
          2 ≤ ms0.length → ms0.length < exStreamOutlier.«matches».length →
          exStreamOutlier._may_reconstruct_by ms0 = true →
        ∃ winner : List (Match WordObj), winner.Sublist exStreamOutlier.«matches»
          ∧ 2 ≤ winner.length ∧ winner.length < exStreamOutlier.«matches».length
          ∧ exStreamOutlier._may_reconstruct_by winner = true
          ∧ (∀ ms : List (Match WordObj), ms.Sublist exStreamOutlier.«matches» →
              2 ≤ ms.length → ms.length < exStreamOutlier.«matches».length →
              exStreamOutlier._may_reconstruct_by ms = true →
              scoreOf (winner.map centroidOf) ≤ scoreOf (ms.map centroidOf))
          ∧ exStreamOutlier.discard_outliers
              = .ok (true, { exStreamOutlier with «matches» := winner }))) :=
  ⟨⟨by decide, by decide, exStreamOutlier_denoms⟩,
    discard_outliers_spec exStreamOutlier (by decide) (by decide) exStreamOutlier_denoms⟩

/-- Counterexample to the unamended outlier-search claim: the stream "a a"
has 3 candidate matches, its full match set fails validation, a valid
2-subsequence exists — yet `discard_outliers` raises `ZeroDivisionError`
instead of returning success, because the first enumerated valid
subsequence has a zero regression denominator. -/
theorem discard_outliers_spec_cex :
    3 ≤ exStreamZeroDenom.«matches».length
    ∧ exStreamZeroDenom._may_reconstruct_by exStreamZeroDenom.«matches» = false
    ∧ (∃ ms : List (Match WordObj), ms.Sublist exStreamZeroDenom.«matches»
        ∧ 2 ≤ ms.length ∧ ms.length < exStreamZeroDenom.«matches».length
        ∧ exStreamZeroDenom._may_reconstruct_by ms = true)
    ∧ exStreamZeroDenom.discard_outliers = .error .zeroDivisionError := by
  have hsub : exPickA.Sublist exStreamZeroDenom.«matches» := by
    show exPickA.Sublist [⟨0, exWa, 0, 1⟩, ⟨0, exWa, 2, 3⟩, ⟨1, exWaHigh, 0, 1⟩]
    rw [exPickA]
    simp
  have hden : denomOf (exPickA.map centroidOf) = 0 := by
    norm_num [denomOf, meanOf, centroidOf, exPickA, exWa]
  refine ⟨by decide, by decide, ⟨exPickA, hsub, by decide, by decide, by decide⟩, ?_⟩
  exact discard_zero_denom_sublist exStreamZeroDenom _ (by decide) hsub
    (by decide) (by decide) (by decide) hden

/-! ### Rectangle union -/

/-- `contains` is reflexive. -/
theorem Rectangle.contains_refl (r : Rectangle) : r.contains r :=
  ⟨le_refl _, le_refl _, le_refl _, le_refl _⟩

/-- `contains` is transitive. -/
theorem Rectangle.contains_trans {r s t : Rectangle}
    (h1 : r.contains s) (h2 : s.contains t) : r.contains t :=
  ⟨le_trans h1.1 h2.1, le_trans h1.2.1 h2.2.1,
    le_trans h2.2.2.1 h1.2.2.1, le_trans h2.2.2.2 h1.2.2.2⟩

/-- The union contains its left operand. -/
theorem Rectangle.union_contains_left (r s : Rectangle) : (r.union s).contains r := by
  unfold Rectangle.union Rectangle.contains
  refine ⟨min_le_left _ _, min_le_left _ _, ?_, ?_⟩ <;>
    · dsimp only
      rw [add_sub_cancel]
      exact le_max_left _ _

/-- The union contains its right operand. -/
theorem Rectangle.union_contains_right (r s : Rectangle) : (r.union s).contains s := by
  unfold Rectangle.union Rectangle.contains
  refine ⟨min_le_right _ _, min_le_right _ _, ?_, ?_⟩ <;>
    · dsimp only
      rw [add_sub_cancel]
      exact le_max_right _ _

/-- The union is the least rectangle containing both operands. -/
theorem Rectangle.union_least {r s t : Rectangle}
    (h1 : t.contains r) (h2 : t.contains s) : t.contains (r.union s) := by
  obtain ⟨a1, b1, c1, d1⟩ := h1
  obtain ⟨a2, b2, c2, d2⟩ := h2
  unfold Rectangle.union Rectangle.contains
  refine ⟨le_min a1 a2, le_min b1 b2, ?_, ?_⟩ <;>
    · dsimp only
      rw [add_sub_cancel]
      first
        | exact max_le c1 c2
        | exact max_le d1 d2

/-- The union fold of the merge contains its starting rectangle. -/
theorem unionFold_contains_init (f : Nat → Rectangle) :
    ∀ (W : List Nat) (u : Rectangle),
      (W.foldl (fun u wix => u.union (f wix)) u).contains u := by
  intro W
  induction W with
  | nil => intro u; exact Rectangle.contains_refl u
  | cons w W ih =>
    intro u
    exact Rectangle.contains_trans (ih (u.union (f w)))
      (Rectangle.union_contains_left _ _)

/-- The union fold of the merge contains every listed rectangle. -/
theorem unionFold_contains_mem (f : Nat → Rectangle) :
    ∀ (W : List Nat) (u : Rectangle) (w : Nat), w ∈ W →
      (W.foldl (fun u wix => u.union (f wix)) u).contains (f w) := by
  intro W
  induction W with
  | nil => intro u w hw; simp at hw
  | cons w0 W ih =>
    intro u w hw
    rcases List.mem_cons.1 hw with rfl | hw'
    · exact Rectangle.contains_trans (unionFold_contains_init f W _)
        (Rectangle.union_contains_right _ _)
    · exact ih _ w hw'

/-- The union fold of the merge is least among rectangles containing the
start and every listed rectangle. -/
theorem unionFold_least (f : Nat → Rectangle) :
    ∀ (W : List Nat) (u t : Rectangle), t.contains u → (∀ w ∈ W, t.contains (f w)) →
      t.contains (W.foldl (fun u wix => u.union (f wix)) u) := by
  intro W
  induction W with
  | nil => intro u t hu _; exact hu
  | cons w0 W ih =>
    intro u t hu hW
    exact ih _ t (Rectangle.union_least hu (hW w0 (by simp)))
      (fun w hw => hW w (by simp [hw]))

/-! ### The merge commit -/

/-- Reading another index after `set` is unchanged. -/
theorem getD_set_ne {α : Type} [Inhabited α] (l : List α) (i j : Nat) (a : α)
    (h : i ≠ j) : (l.set i a).getD j default = l.getD j default := by
  rw [List.getD_eq_getElem?_getD, List.getElem?_set, if_neg h,
    List.getD_eq_getElem?_getD]

/-- Reading a `mapIdx` result at any position. -/
theorem getD_mapIdx {α : Type} [Inhabited α] (f : Nat → α → α) (l : List α) (j : Nat) :
    (l.mapIdx f).getD j default
      = if h : j < l.length then f j l[j] else default := by
  rw [List.getD_eq_getElem?_getD, List.getElem?_mapIdx]
  by_cases h : j < l.length
  · rw [dif_pos h, List.getElem?_eq_getElem h]
    simp
  · rw [dif_neg h, List.getElem?_eq_none (by omega)]
    simp

/-- The streams after one bookkeeping step of the merge. -/
theorem claimStep_streams (c : Nat) (p : RawTextPreprocessor) (wix : Nat) :
    (p.claimStep c wix).raw_streams
      = p.raw_streams.mapIdx (fun stream_ix st =>
          if stream_ix == c then st
          else { st with «matches» := st.«matches».filter (fun m => m.index != wix) }) := rfl

/-- One bookkeeping step of the merge, read at one stream position: the
merged stream is untouched, every other stream loses the consumed index. -/
theorem claimStep_streams_getD (c : Nat) (p : RawTextPreprocessor) (wix j : Nat) :
    (p.claimStep c wix).raw_streams.getD j default
      = if j = c then p.raw_streams.getD j default
        else { p.raw_streams.getD j default with
          «matches» := (p.raw_streams.getD j default).«matches».filter
            (fun m => m.index != wix) } := by
  rw [claimStep_streams, getD_mapIdx]
  by_cases hj : j < p.raw_streams.length
  · rw [dif_pos hj]
    by_cases h : j = c
    · rw [if_pos (by simpa using h), if_pos h, List.getD_eq_getElem _ _ hj]
    · rw [if_neg (by simpa using h), if_neg h, List.getD_eq_getElem _ _ hj]
  · rw [dif_neg hj]
    have hd : p.raw_streams.getD j default = default := by
      rw [List.getD_eq_getElem?_getD, List.getElem?_eq_none (by omega)]
      rfl
    rw [hd]
    by_cases h : j = c
    · rw [if_pos h]
    · rw [if_neg h]
      rfl

/-- One bookkeeping step keeps every word's positioned token unchanged. -/
theorem claimStep_words_obj (c : Nat) (p : RawTextPreprocessor) (wix i : Nat) :
    ((p.claimStep c wix).words.getD i default)._word_obj
      = (p.words.getD i default)._word_obj := by
  show ((p.words.set wix _).getD i default)._word_obj = _
  rw [List.getD_eq_getElem?_getD, List.getElem?_set]
  by_cases h : wix = i
  · subst h
    by_cases hl : wix < p.words.length
    · rw [if_pos rfl, if_pos hl]
      rw [Option.getD_some]
    · rw [if_pos rfl, if_neg hl]
      rw [Option.getD_none]
      rw [List.getD_eq_getElem?_getD, List.getElem?_eq_none (by omega)]
      rfl
  · rw [if_neg h, List.getD_eq_getElem?_getD]

/-- One bookkeeping step preserves the word-list length. -/
theorem claimStep_words_length (c : Nat) (p : RawTextPreprocessor) (wix : Nat) :
    (p.claimStep c wix).words.length = p.words.length := by
  show (p.words.set wix _).length = _
  rw [List.length_set]

/-- One bookkeeping step preserves the stream-list length. -/
theorem claimStep_streams_length (c : Nat) (p : RawTextPreprocessor) (wix : Nat) :
    (p.claimStep c wix).raw_streams.length = p.raw_streams.length := by
  rw [claimStep_streams, List.length_mapIdx]

/-- Sequentially filtering out each index of `W` equals one filter. -/
theorem filter_out_cons (w : Nat) (W : List Nat) (l : List (Match WordObj)) :
    (l.filter (fun m => m.index != w)).filter (fun m => decide (m.index ∉ W))
      = l.filter (fun m => decide (m.index ∉ w :: W)) := by
  rw [List.filter_filter]
  congr 1
  funext m
  by_cases hw : m.index = w <;> by_cases hW : m.index ∈ W <;>
    simp [hw, hW, List.mem_cons]

/-- The word tokens are untouched by the whole bookkeeping fold. -/
theorem claimFold_words_obj (c : Nat) :
    ∀ (W : List Nat) (p : RawTextPreprocessor) (i : Nat),
      ((W.foldl (RawTextPreprocessor.claimStep c) p).words.getD i default)._word_obj
        = (p.words.getD i default)._word_obj := by
  intro W
  induction W with
  | nil => intro p i; rfl
  | cons w W ih =>
    intro p i
    rw [List.foldl_cons, ih, claimStep_words_obj]

/-- The whole bookkeeping fold preserves the word-list length. -/
theorem claimFold_words_length (c : Nat) :
    ∀ (W : List Nat) (p : RawTextPreprocessor),
      (W.foldl (RawTextPreprocessor.claimStep c) p).words.length = p.words.length := by
  intro W
  induction W with
  | nil => intro p; rfl
  | cons w W ih =>
    intro p
    rw [List.foldl_cons, ih, claimStep_words_length]

/-- The whole bookkeeping fold preserves the stream-list length. -/
theorem claimFold_streams_length (c : Nat) :
    ∀ (W : List Nat) (p : RawTextPreprocessor),
      (W.foldl (RawTextPreprocessor.claimStep c) p).raw_streams.length
        = p.raw_streams.length := by
  intro W
  induction W with
  | nil => intro p; rfl
  | cons w W ih =>
    intro p
    rw [List.foldl_cons, ih, claimStep_streams_length]

/-- The bookkeeping fold, read at one stream position: the merged stream is
untouched, every other stream's match list is restricted to the word
indices not consumed. -/
theorem claimFold_streams_getD (c : Nat) :
    ∀ (W : List Nat) (p : RawTextPreprocessor) (j : Nat),
      (W.foldl (RawTextPreprocessor.claimStep c) p).raw_streams.getD j default
        = if j = c then p.raw_streams.getD j default
          else { p.raw_streams.getD j default with
            «matches» := (p.raw_streams.getD j default).«matches».filter
              (fun m => decide (m.index ∉ W)) } := by
  intro W
  induction W with
  | nil =>
    intro p j
    by_cases h : j = c
    · rw [List.foldl_nil, if_pos h]
    · rw [List.foldl_nil, if_neg h]
      have hpred : (fun (m : Match WordObj) => decide (m.index ∉ ([] : List Nat)))
          = fun _ => true := by
        funext m
        simp
      rw [hpred, List.filter_true]
  | cons w W ih =>
    intro p j
    rw [List.foldl_cons, ih, claimStep_streams_getD]
    by_cases h : j = c
    · rw [if_pos h, if_pos h, if_pos h]
    · rw [if_neg h, if_neg h, if_neg h]
      show { p.raw_streams.getD j default with
          «matches» := ((p.raw_streams.getD j default).«matches».filter
            (fun (m : Match WordObj) => m.index != w)).filter
              (fun (m : Match WordObj) => decide (m.index ∉ W)) } = _
      rw [filter_out_cons]

/-- With a validating stream, the merge commit succeeds; the resulting state
is the bookkeeping fold and the token carries the stream's full text. -/
theorem merge_ok_state (p : RawTextPreprocessor) (c : Nat)
    (hok : ((p.raw_streams.getD c default).may_merge).1 = true) :
    ∃ tok, p._merge_words_of_stream c = .ok (tok,
        (((p.raw_streams.getD c default).may_merge).2.«matches».map (fun m => m.index)).foldl
          (RawTextPreprocessor.claimStep c)
          { p with raw_streams :=
              p.raw_streams.set c ((p.raw_streams.getD c default).may_merge).2 })
      ∧ tok.t = (p.raw_streams.getD c default)._stream := by
  simp only [RawTextPreprocessor._merge_words_of_stream]
  rw [if_neg (by rw [hok]; simp)]
  exact ⟨_, rfl, may_merge_stream _⟩

/-- Equal tokens give equal rectangles. -/
theorem rectangle_congr (a b : Word) (h : a._word_obj = b._word_obj) :
    a.rectangle = b.rectangle := by
  unfold Word.rectangle
  rw [h]

/-- The union fold of the merge, over word rectangles that agree with a
reference word list: it contains every referenced rectangle and is least
among rectangles containing all of them. -/
theorem union_fold_spec (words : List Word) (q : RawTextPreprocessor) (W : List Nat)
    (hrect : ∀ w : Nat, (q.words.getD w default).rectangle
      = (words.getD w default).rectangle)
    (hne : W ≠ []) :
    (∀ wix ∈ W,
      (W.foldl (fun u word_ix => u.union ((q.words.getD word_ix default).rectangle))
        ((q.words.getD (W.getD 0 0) default).rectangle)).contains
          ((words.getD wix default).rectangle))
    ∧ ∀ r : Rectangle, (∀ wix ∈ W, r.contains ((words.getD wix default).rectangle)) →
        r.contains
          (W.foldl (fun u word_ix => u.union ((q.words.getD word_ix default).rectangle))
            ((q.words.getD (W.getD 0 0) default).rectangle)) := by
  have hfun : (fun (u : Rectangle) (word_ix : Nat) =>
        u.union ((q.words.getD word_ix default).rectangle))
      = fun u word_ix => u.union ((words.getD word_ix default).rectangle) := by
    funext u w
    rw [hrect w]
  rw [hfun, hrect]
  have hmem0 : W.getD 0 0 ∈ W := by
    rcases W with _ | ⟨w, W⟩
    · exact absurd rfl hne
    · simp
  constructor
  · intro wix hw
    exact unionFold_contains_mem _ W _ wix hw
  · intro r hr
    exact unionFold_least _ W _ r (hr _ hmem0) hr

/-- C5: a committed merge emits a token whose text is the stream's full
string and whose rectangle is the union of the rectangles of the words
referenced by the stream's (possibly pruned) matches: it contains every
constituent word's rectangle and is the least rectangle doing so. -/
theorem merge_token_spec (p : RawTextPreprocessor) (ix : Nat)
    (hok : ((p.raw_streams.getD ix default).may_merge).1 = true)
    (hne : (p.raw_streams.getD ix default).«matches» ≠ []) :
    ∃ tok p', p._merge_words_of_stream ix = .ok (tok, p')
      ∧ tok.t = (p.raw_streams.getD ix default)._stream
      ∧ (∀ wix ∈ streamIndices p ix,
          Rectangle.contains ⟨tok.x, tok.y, tok.w, tok.h⟩
            ((p.words.getD wix default).rectangle))
      ∧ (∀ r : Rectangle,
          (∀ wix ∈ streamIndices p ix,
            r.contains ((p.words.getD wix default).rectangle)) →
          r.contains ⟨tok.x, tok.y, tok.w, tok.h⟩) := by
  have hW : ((p.raw_streams.getD ix default).may_merge).2.«matches».map
      (fun m => m.index) = streamIndices p ix := by
    rw [may_merge_matches]
    rfl
  simp only [RawTextPreprocessor._merge_words_of_stream]
  rw [if_neg (by rw [hok]; simp)]
  refine ⟨_, _, rfl, may_merge_stream _, ?_, ?_⟩
  · intro wix hw
    refine (union_fold_spec p.words _ _ ?_ ?_).1 wix ?_
    · intro w
      exact rectangle_congr _ _ (claimFold_words_obj ix _ _ w)
    · rw [hW]
      show streamIndices p ix ≠ []
      unfold streamIndices
      intro hmap
      exact hne (List.map_eq_nil_iff.1 hmap)
    · rw [hW]
      exact hw
  · intro r hr
    refine (union_fold_spec p.words _ _ ?_ ?_).2 r ?_
    · intro w
      exact rectangle_congr _ _ (claimFold_words_obj ix _ _ w)
    · rw [hW]
      show streamIndices p ix ≠ []
      unfold streamIndices
      intro hmap
      exact hne (List.map_eq_nil_iff.1 hmap)
    · rw [hW]
      exact hr

/-! ### The merge driver -/

/-- Reading back the index just written by `set`. -/
theorem getD_set_self {α : Type} [Inhabited α] (l : List α) (i : Nat) (a : α)
    (h : i < l.length) : (l.set i a).getD i default = a := by
  rw [List.getD_eq_getElem?_getD, List.getElem?_set, if_pos rfl, if_pos h,
    Option.getD_some]

/-- The possible shapes of a successful search step: the accumulator is
kept, or the current pick is installed. -/
theorem outlierStep_ok_shape (s : Stream) (acc : Option (ℚ × List (Match WordObj × Point)))
    (pick : List (Match WordObj × Point)) (acc' : Option (ℚ × List (Match WordObj × Point)))
    (h : s.outlierStep acc pick = .ok acc') :
    acc' = acc ∨ ∃ a, acc' = some (a, pick) := by
  unfold Stream.outlierStep at h
  by_cases hv : s._may_reconstruct_by (pick.map Prod.fst) = false
  · rw [if_pos hv] at h
    left
    injection h with h'
    exact h'.symm
  · rw [if_neg hv] at h
    cases hr : regressionScore (pick.map Prod.snd) pick.length with
    | error e1 =>
      rw [hr, except_bind_error] at h
      exact Except.noConfusion h
    | ok a =>
      rw [hr] at h
      simp only [except_bind_ok] at h
      rcases acc with _ | ⟨b, w⟩
      · right
        injection h with h'
        exact ⟨a, h'.symm⟩
      · by_cases hab : a < b
        · rw [show (match some (b, w) with
            | none => (return some (a, pick) : Except PyErr _)
            | some (best_horizontal, best) =>
              if a < best_horizontal then return some (a, pick)
              else return some (best_horizontal, best)) =
              (if a < b then (return some (a, pick) : Except PyErr _)
               else return some (b, w)) from rfl, if_pos hab] at h
          right
          injection h with h'
          exact ⟨a, h'.symm⟩
        · rw [show (match some (b, w) with
            | none => (return some (a, pick) : Except PyErr _)
            | some (best_horizontal, best) =>
              if a < best_horizontal then return some (a, pick)
              else return some (best_horizontal, best)) =
              (if a < b then (return some (a, pick) : Except PyErr _)
               else return some (b, w)) from rfl, if_neg hab] at h
          left
          injection h with h'
          exact h'.symm

/-- Any pick stored by the search loop comes from the processed list or the
initial accumulator. -/
theorem fold_some_pick (s : Stream) (Q : List (Match WordObj × Point) → Prop) :
    ∀ (L : List (List (Match WordObj × Point)))
      (acc : Option (ℚ × List (Match WordObj × Point))),
      (∀ a w, acc = some (a, w) → Q w) → (∀ pk ∈ L, Q pk) →
      ∀ res, L.foldlM (s.outlierStep) acc = .ok res →
      ∀ a w, res = some (a, w) → Q w := by
  intro L
  induction L with
  | nil =>
    intro acc hacc _ res hres
    rw [List.foldlM_nil] at hres
    injection hres with h'
    rw [← h']
    exact hacc
  | cons pk L ih =>
    intro acc hacc hL res hres
    rw [List.foldlM_cons] at hres
    cases hstep : s.outlierStep acc pk with
    | error e =>
      rw [hstep, except_bind_error] at hres
      exact Except.noConfusion hres
    | ok acc' =>
      rw [hstep, except_bind_ok] at hres
      refine ih acc' ?_ (fun q hq => hL q (by simp [hq])) res hres
      intro a w hw
      rcases outlierStep_ok_shape s acc pk acc' hstep with rfl | ⟨a', ha'⟩
      · exact hacc a w hw
      · rw [ha'] at hw
        injection hw with hw'
        injection hw' with _ hw2
        rw [← hw2]
        exact hL pk (by simp)

/-- A successful `discard_outliers` only ever shrinks the match list and
touches nothing else of the stream. -/
theorem discard_outliers_sublist (s : Stream) (b : Bool) (s' : Stream)
    (h : s.discard_outliers = .ok (b, s')) :
    s'.«matches».Sublist s.«matches» ∧ s'._stream = s._stream
      ∧ s'._may_merge = s._may_merge := by
  unfold Stream.discard_outliers at h
  by_cases h3 : s.«matches».length < 3
  · rw [if_pos h3] at h
    injection h with h'
    injection h' with hb hs
    rw [← hs]
    exact ⟨List.Sublist.refl _, rfl, rfl⟩
  · rw [if_neg h3] at h
    cases hf : s.enum_picks.foldlM (s.outlierStep) none with
    | error e =>
      rw [hf, except_bind_error2] at h
      exact Except.noConfusion h
    | ok best =>
      rw [hf, except_bind_ok2] at h
      rcases best with _ | ⟨a, w⟩
      · injection h with h'
        injection h' with hb hs
        rw [← hs]
        exact ⟨List.Sublist.refl _, rfl, rfl⟩
      · have hw : w ∈ s.enum_picks := by
          refine fold_some_pick s (· ∈ s.enum_picks) s.enum_picks none ?_
            (fun q hq => hq) _ hf a w rfl
          intro a' w' hw'
          exact Option.noConfusion hw'
        obtain ⟨ms, hsub, _, _, rfl⟩ := enum_pick_decomp s (by omega) w hw
        injection h with h'
        injection h' with hb hs
        rw [← hs]
        refine ⟨?_, rfl, rfl⟩
        rw [map_fst_pair]
        exact hsub

/-- Writing back the value already stored changes nothing. -/
theorem set_getD_self {α : Type} [Inhabited α] (l : List α) (i : Nat)
    (h : i < l.length) : l.set i (l.getD i default) = l := by
  apply List.ext_getElem (by simp)
  intro n h1 h2
  rw [List.getElem_set]
  by_cases hn : i = n
  · subst hn
    rw [if_pos rfl, List.getD_eq_getElem _ _ h]
  · rw [if_neg hn]

/-- Replacing one unresolved stream's match list by a subsequence preserves
the resolved-streams disjointness invariant. -/
theorem disjoint_set_sublist (p : RawTextPreprocessor) (resolved : List Nat) (i : Nat)
    (s' : Stream) (hi : i < p.raw_streams.length) (hmem : i ∉ resolved)
    (hsub : s'.«matches».Sublist (p.raw_streams.getD i default).«matches»)
    (hinv : disjointResolved p resolved) :
    disjointResolved { p with raw_streams := p.raw_streams.set i s' } resolved := by
  have hIdx : ∀ k, streamIndices { p with raw_streams := p.raw_streams.set i s' } k
      = if k = i then s'.«matches».map (fun m => m.index) else streamIndices p k := by
    intro k
    unfold streamIndices
    by_cases hk : k = i
    · subst hk
      rw [if_pos rfl]
      show ((p.raw_streams.set k s').getD k default).«matches».map _ = _
      rw [getD_set_self _ _ _ hi]
    · rw [if_neg hk]
      show ((p.raw_streams.set i s').getD k default).«matches».map _ = _
      rw [getD_set_ne _ _ _ _ (fun h => hk h.symm)]
  intro i0 hi0 j hj w hw
  have hne_i0 : i0 ≠ i := fun h => hmem (h ▸ hi0)
  rw [hIdx, if_neg hne_i0] at hw
  intro hwj
  rw [hIdx] at hwj
  by_cases hji : j = i
  · rw [if_pos hji] at hwj
    have hwj' : w ∈ streamIndices p i := by
      unfold streamIndices
      exact (hsub.map (fun m => m.index)).subset hwj
    exact hinv i0 hi0 i (hji ▸ hj) w hw hwj'
  · rw [if_neg hji] at hwj
    exact hinv i0 hi0 j hj w hw hwj

/-- Committing the bookkeeping fold for stream `i` makes `i` resolvable:
the enlarged resolved set stays pairwise disjoint. -/
theorem disjoint_after_claimFold (p1 : RawTextPreprocessor) (resolved : List Nat)
    (i : Nat) (hmem : i ∉ resolved)
    (hinv : disjointResolved p1 resolved) :
    disjointResolved ((streamIndices p1 i).foldl (RawTextPreprocessor.claimStep i) p1)
      (i :: resolved) := by
  have hIdx : ∀ k,
      streamIndices ((streamIndices p1 i).foldl (RawTextPreprocessor.claimStep i) p1) k
        = if k = i then streamIndices p1 k
          else ((p1.raw_streams.getD k default).«matches».filter
            (fun m => decide (m.index ∉ streamIndices p1 i))).map (fun m => m.index) := by
    intro k
    unfold streamIndices
    rw [claimFold_streams_getD]
    by_cases hk : k = i
    · rw [if_pos hk, if_pos hk]
    · rw [if_neg hk, if_neg hk]
  intro i0 hi0 j hj w hw
  rcases List.mem_cons.1 hi0 with rfl | hi0'
  · rw [hIdx, if_pos rfl] at hw
    intro hwj
    rw [hIdx, if_neg hj] at hwj
    obtain ⟨m, hm, rfl⟩ := List.mem_map.1 hwj
    have hpred := (List.mem_filter.1 hm).2
    simp only [decide_eq_true_eq] at hpred
    exact hpred hw
  · have hne : i0 ≠ i := fun h => hmem (h ▸ hi0')
    rw [hIdx, if_neg hne] at hw
    obtain ⟨m, hm, rfl⟩ := List.mem_map.1 hw
    obtain ⟨hm_mem, hm_pred⟩ := List.mem_filter.1 hm
    simp only [decide_eq_true_eq] at hm_pred
    have hw1 : m.index ∈ streamIndices p1 i0 := by
      unfold streamIndices
      exact List.mem_map.2 ⟨m, hm_mem, rfl⟩
    intro hwj
    rw [hIdx] at hwj
    by_cases hji : j = i
    · rw [if_pos hji, hji] at hwj
      exact hm_pred hwj
    · rw [if_neg hji] at hwj
      obtain ⟨m', hm', hm'eq⟩ := List.mem_map.1 hwj
      have hw2 : m.index ∈ streamIndices p1 j := by
        unfold streamIndices
        exact List.mem_map.2 ⟨m', (List.mem_filter.1 hm').1, hm'eq⟩
      exact hinv i0 hi0' j hj m.index hw1 hw2

/-- A set flag makes `may_merge` the identity success. -/
theorem may_merge_eq_of_flag (s : Stream) (h : s._may_merge = true) :
    s.may_merge = (true, s) := by
  unfold Stream.may_merge
  rw [if_pos h]

/-- The loop-body tail always succeeds (for an in-range stream index),
preserves the stream count and preserves the disjointness invariant,
provided the stream being written back has a subsequence of the stored
match list. -/
theorem runPassFinish_spec (st : LoopState) (i : Nat) (stream : Stream)
    (hi : i < st.pre.raw_streams.length)
    (hmem : i ∉ st.can_merge_streams)
    (hsub : stream.«matches».Sublist (st.pre.raw_streams.getD i default).«matches») :
    ∃ st', RawTextPreprocessor.runPassFinish st i stream = .ok st'
      ∧ st'.pre.raw_streams.length = st.pre.raw_streams.length
      ∧ (disjointResolved st.pre st.can_merge_streams →
          disjointResolved st'.pre st'.can_merge_streams) := by
  unfold RawTextPreprocessor.runPassFinish
  have hlen1 : (st.pre.raw_streams.set i (stream.may_merge).2).length
      = st.pre.raw_streams.length := List.length_set _ _ _
  have hi1 : i < (st.pre.raw_streams.set i (stream.may_merge).2).length := by
    rw [hlen1]
    exact hi
  have hgetD : ((st.pre.raw_streams.set i (stream.may_merge).2).getD i default)
      = (stream.may_merge).2 := getD_set_self _ _ _ hi
  have hsub2 : (stream.may_merge).2.«matches».Sublist
      (st.pre.raw_streams.getD i default).«matches» := by
    rw [may_merge_matches]
    exact hsub
  by_cases h2 : (stream.may_merge).1 = true
  · rw [if_pos h2]
    have hflag : (stream.may_merge).2._may_merge = true := may_merge_true_flag stream h2
    have hok : ((({ st.pre with
          raw_streams := st.pre.raw_streams.set i (stream.may_merge).2 } :
          RawTextPreprocessor).raw_streams.getD i default).may_merge).1 = true := by
      show (((st.pre.raw_streams.set i (stream.may_merge).2).getD i default).may_merge).1
        = true
      rw [hgetD]
      exact may_merge_of_flag _ hflag
    obtain ⟨tok, hmerge, _⟩ := merge_ok_state _ i hok
    have hmm2 : (({ st.pre with
          raw_streams := st.pre.raw_streams.set i (stream.may_merge).2 } :
          RawTextPreprocessor).raw_streams.getD i default).may_merge
        = (true, (stream.may_merge).2) := by
      show ((st.pre.raw_streams.set i (stream.may_merge).2).getD i default).may_merge = _
      rw [hgetD]
      exact may_merge_eq_of_flag _ hflag
    rw [hmm2] at hmerge
    rw [hmerge, except_bind_ok2]
    refine ⟨_, rfl, ?_, ?_⟩
    · show ((((true, (stream.may_merge).2).2.«matches».map (fun m => m.index)).foldl
          (RawTextPreprocessor.claimStep i) _).raw_streams.length) = _
      rw [claimFold_streams_length]
      show ((st.pre.raw_streams.set i (stream.may_merge).2).set i
        (true, (stream.may_merge).2).2).length = _
      rw [List.length_set, List.length_set]
    · intro hinv
      show disjointResolved
        (((stream.may_merge).2.«matches».map (fun m => m.index)).foldl
          (RawTextPreprocessor.claimStep i)
          { st.pre with raw_streams :=
              (st.pre.raw_streams.set i (stream.may_merge).2).set i (stream.may_merge).2 })
        (i :: st.can_merge_streams)
      rw [List.set_set]
      have hW : streamIndices { st.pre with
          raw_streams := st.pre.raw_streams.set i (stream.may_merge).2 } i
          = (stream.may_merge).2.«matches».map (fun m => m.index) := by
        unfold streamIndices
        show ((st.pre.raw_streams.set i (stream.may_merge).2).getD i default).«matches».map _
          = _
        rw [hgetD]
      rw [← hW]
      exact disjoint_after_claimFold _ _ i hmem
        (disjoint_set_sublist st.pre _ i _ hi hmem hsub2 hinv)
  · rw [if_neg h2]
    refine ⟨_, rfl, by simp [List.length_set], ?_⟩
    intro hinv
    exact disjoint_set_sublist st.pre _ i _ hi hmem hsub2 hinv

/-- One loop-body step, on an in-range index: the only possible error is
`ZeroDivisionError`, and a success preserves the stream count and the
disjointness invariant. -/
theorem runPassStep_spec (st : LoopState) (i : Nat)
    (hi : i < st.pre.raw_streams.length) :
    (∀ e, RawTextPreprocessor.runPassStep st i = .error e → e = .zeroDivisionError)
    ∧ (∀ st', RawTextPreprocessor.runPassStep st i = .ok st' →
        st'.pre.raw_streams.length = st.pre.raw_streams.length
        ∧ (disjointResolved st.pre st.can_merge_streams →
            disjointResolved st'.pre st'.can_merge_streams)) := by
  unfold RawTextPreprocessor.runPassStep
  by_cases hmem : i ∈ st.can_merge_streams
  · rw [if_pos hmem]
    constructor
    · intro e he
      exact Except.noConfusion he
    · intro st' hst'
      injection hst' with h'
      rw [← h']
      exact ⟨rfl, id⟩
  · rw [if_neg hmem]
    by_cases h1 : (((st.pre.raw_streams.getD i default).may_merge).1 = false)
    · rw [if_pos h1]
      cases hd : ((st.pre.raw_streams.getD i default).may_merge).2.discard_outliers with
      | error e1 =>
        rw [except_bind_error2]
        constructor
        · intro e he
          injection he with h'
          subst h'
          exact discard_outliers_error_eq _ _ hd
        · intro st' hst'
          exact Except.noConfusion hst'
      | ok r =>
        rw [except_bind_ok2]
        have hsub : r.2.«matches».Sublist
            (st.pre.raw_streams.getD i default).«matches» := by
          have h := discard_outliers_sublist _ r.1 r.2 (by rw [← hd])
          exact h.1.trans (by rw [may_merge_matches])
        obtain ⟨st', hst', hlen, hinv⟩ := runPassFinish_spec st i r.2 hi hmem hsub
        rw [hst']
        constructor
        · intro e he
          exact Except.noConfusion he
        · intro st'' hst''
          injection hst'' with h'
          rw [← h']
          exact ⟨hlen, hinv⟩
    · rw [if_neg h1]
      have hsub : ((st.pre.raw_streams.getD i default).may_merge).2.«matches».Sublist
          (st.pre.raw_streams.getD i default).«matches» := by
        rw [may_merge_matches]
      obtain ⟨st', hst', hlen, hinv⟩ := runPassFinish_spec st i _ hi hmem hsub
      rw [hst']
      constructor
      · intro e he
        exact Except.noConfusion he
      · intro st'' hst''
        injection hst'' with h'
        rw [← h']
        exact ⟨hlen, hinv⟩

/-- A whole pass over in-range stream indices: only `ZeroDivisionError` can
escape, and a successful pass preserves the stream count and the
disjointness invariant. -/
theorem passFold_spec :
    ∀ (L : List Nat) (st : LoopState), (∀ i ∈ L, i < st.pre.raw_streams.length) →
    ((∀ e, L.foldlM RawTextPreprocessor.runPassStep st = .error e →
        e = .zeroDivisionError)
      ∧ (∀ st', L.foldlM RawTextPreprocessor.runPassStep st = .ok st' →
          st'.pre.raw_streams.length = st.pre.raw_streams.length
          ∧ (disjointResolved st.pre st.can_merge_streams →
              disjointResolved st'.pre st'.can_merge_streams))) := by
  intro L
  induction L with
  | nil =>
    intro st _
    constructor
    · intro e he
      rw [List.foldlM_nil] at he
      exact Except.noConfusion he
    · intro st' hst'
      rw [List.foldlM_nil] at hst'
      injection hst' with h'
      rw [← h']
      exact ⟨rfl, id⟩
  | cons i L ih =>
    intro st hbound
    have hi : i < st.pre.raw_streams.length := hbound i (by simp)
    constructor
    · intro e he
      rw [List.foldlM_cons] at he
      cases hstep : RawTextPreprocessor.runPassStep st i with
      | error e1 =>
        rw [hstep, except_bind_error] at he
        injection he with h'
        subst h'
        exact (runPassStep_spec st i hi).1 _ hstep
      | ok st1 =>
        rw [hstep, except_bind_ok] at he
        have hlen1 := ((runPassStep_spec st i hi).2 st1 hstep).1
        exact (ih st1 (fun j hj => by rw [hlen1]; exact hbound j (by simp [hj]))).1 e he
    · intro st' hst'
      rw [List.foldlM_cons] at hst'
      cases hstep : RawTextPreprocessor.runPassStep st i with
      | error e1 =>
        rw [hstep, except_bind_error] at hst'
        exact Except.noConfusion hst'
      | ok st1 =>
        rw [hstep, except_bind_ok] at hst'
        obtain ⟨hlen1, hinv1⟩ := (runPassStep_spec st i hi).2 st1 hstep
        obtain ⟨hlen2, hinv2⟩ := (ih st1
          (fun j hj => by rw [hlen1]; exact hbound j (by simp [hj]))).2 st' hst'
        exact ⟨hlen2.trans hlen1, fun h => hinv2 (hinv1 h)⟩

/-- The whole merge loop: only `ZeroDivisionError` can escape, and a
successful run preserves the disjointness invariant. -/
theorem runLoop_spec :
    ∀ (fuel : Nat) (st : LoopState),
    ((∀ e, RawTextPreprocessor.runLoop fuel st = .error e → e = .zeroDivisionError)
      ∧ (∀ st', RawTextPreprocessor.runLoop fuel st = .ok st' →
          (disjointResolved st.pre st.can_merge_streams →
            disjointResolved st'.pre st'.can_merge_streams))) := by
  intro fuel
  induction fuel with
  | zero =>
    intro st
    constructor
    · intro e he
      exact Except.noConfusion he
    · intro st' hst'
      injection hst' with h'
      rw [← h']
      exact id
  | succ fuel ih =>
    intro st
    have hbound : ∀ i ∈ List.range
        (LoopState.pre { st with keep_merging := false }).raw_streams.length,
        i < (LoopState.pre { st with keep_merging := false }).raw_streams.length :=
      fun i hi => List.mem_range.1 hi
    constructor
    · intro e he
      unfold RawTextPreprocessor.runLoop at he
      cases hpass : (List.range st.pre.raw_streams.length).foldlM
          RawTextPreprocessor.runPassStep { st with keep_merging := false } with
      | error e1 =>
        rw [hpass, except_bind_error] at he
        injection he with h'
        subst h'
        exact (passFold_spec _ _ hbound).1 _ hpass
      | ok st1 =>
        rw [hpass, except_bind_ok] at he
        by_cases hk : st1.keep_merging = true
        · rw [if_pos hk] at he
          exact (ih st1).1 e he
        · rw [if_neg hk] at he
          exact Except.noConfusion he
    · intro st' hst'
      unfold RawTextPreprocessor.runLoop at hst'
      cases hpass : (List.range st.pre.raw_streams.length).foldlM
          RawTextPreprocessor.runPassStep { st with keep_merging := false } with
      | error e1 =>
        rw [hpass, except_bind_error] at hst'
        exact Except.noConfusion hst'
      | ok st1 =>
        rw [hpass, except_bind_ok] at hst'
        have hinv1 := ((passFold_spec _ _ hbound).2 st1 hpass).2
        by_cases hk : st1.keep_merging = true
        · rw [if_pos hk] at hst'
          exact fun h => (ih st1).2 st' hst' (hinv1 h)
        · rw [if_neg hk] at hst'
          injection hst' with h'
          rw [← h']
          exact fun h => hinv1 h

/-- C7: committing a merge on a stream whose current match set does not
validate raises `RawTextPreprocessorException`; and that error is never
reachable through the public driver `run`, which commits only after
`may_merge` has succeeded (the only error `run` can surface is the
`ZeroDivisionError` of the outlier search). -/
theorem merge_error_handling (p : RawTextPreprocessor) (ix : Nat) :
    (((p.raw_streams.getD ix default).may_merge).1 = false →
      p._merge_words_of_stream ix = .error .rawTextPreprocessorException)
    ∧ p.run ≠ .error .rawTextPreprocessorException := by
  constructor
  · intro h
    simp only [RawTextPreprocessor._merge_words_of_stream]
    rw [if_pos h]
  · intro hrun
    unfold RawTextPreprocessor.run at hrun
    cases hloop : RawTextPreprocessor.runLoop (p.raw_streams.length + 1)
        ⟨p, [], [], true⟩ with
    | error e =>
      rw [hloop, except_bind_error] at hrun
      injection hrun with h'
      have := (runLoop_spec _ _).1 e hloop
      rw [this] at h'
      exact PyErr.noConfusion h'
    | ok st =>
      rw [hloop, except_bind_ok] at hrun
      exact Except.noConfusion hrun

/-- Witness for `merge_error_handling`: a preprocessor whose only stream
does not validate; the commit raises, and `run` never surfaces that error. -/
theorem merge_error_handling_witness :
    ((exPreNoMerge.raw_streams.getD 0 default).may_merge).1 = false
    ∧ exPreNoMerge._merge_words_of_stream 0 = .error .rawTextPreprocessorException
    ∧ exPreNoMerge.run ≠ .error .rawTextPreprocessorException :=
  ⟨by decide, (merge_error_handling exPreNoMerge 0).1 (by decide),
    (merge_error_handling exPreNoMerge 0).2⟩

/-- C4: after a complete run of the merge driver, no word index is
referenced by the final match sets of two different resolved streams. -/
theorem run_partition_exclusive (p : RawTextPreprocessor)
    (out : List WordObj) (p' : RawTextPreprocessor) (resolved : List Nat)
    (h : p.run = .ok (out, p', resolved)) :
    ∀ i ∈ resolved, ∀ j ∈ resolved, i ≠ j →
      ∀ w ∈ streamIndices p' i, w ∉ streamIndices p' j := by
  unfold RawTextPreprocessor.run at h
  cases hloop : RawTextPreprocessor.runLoop (p.raw_streams.length + 1)
      ⟨p, [], [], true⟩ with
  | error e =>
    rw [hloop, except_bind_error] at h
    exact Except.noConfusion h
  | ok st =>
    rw [hloop, except_bind_ok] at h
    have hinv0 : disjointResolved p ([] : List Nat) := by
      intro i hi
      simp at hi
    have hinv := (runLoop_spec _ _).2 st hloop hinv0
    injection h with h'
    injection h' with hout h''
    injection h'' with hpre hres
    rw [← hpre, ← hres]
    intro i hi j hj hij w hw
    exact hinv i hi j (fun hja => hij (hja.symm)) w hw

/-- Witness for `run_partition_exclusive`: a run over a preprocessor with
no streams resolves nothing and trivially partitions. -/
theorem run_partition_exclusive_witness :
    exPreNoStreams.run
      = .ok ([exWa], exPreNoStreams, [])
    ∧ ∀ i ∈ ([] : List Nat), ∀ j ∈ ([] : List Nat), i ≠ j →
        ∀ w ∈ streamIndices exPreNoStreams i, w ∉ streamIndices exPreNoStreams j :=
  ⟨rfl, run_partition_exclusive exPreNoStreams [exWa] exPreNoStreams [] rfl⟩

/-- Witness for `merge_token_spec`: merging the one-word stream "a". -/
theorem merge_token_spec_witness :
    (((exPreMerge.raw_streams.getD 0 default).may_merge).1 = true
      ∧ (exPreMerge.raw_streams.getD 0 default).«matches» ≠ [])
    ∧ (∃ tok p', exPreMerge._merge_words_of_stream 0 = .ok (tok, p')
      ∧ tok.t = (exPreMerge.raw_streams.getD 0 default)._stream
      ∧ (∀ wix ∈ streamIndices exPreMerge 0,
          Rectangle.contains ⟨tok.x, tok.y, tok.w, tok.h⟩
            ((exPreMerge.words.getD wix default).rectangle))
      ∧ (∀ r : Rectangle,
          (∀ wix ∈ streamIndices exPreMerge 0,
            r.contains ((exPreMerge.words.getD wix default).rectangle)) →
          r.contains ⟨tok.x, tok.y, tok.w, tok.h⟩)) :=
  ⟨⟨by decide, by simp [exPreMerge, exStreamOk]⟩,
    merge_token_spec exPreMerge 0 (by decide) (by simp [exPreMerge, exStreamOk])⟩

/-! ### The word filter of the matching step -/

/-- C9: words whose text is a single plain space or the Unicode em space
are excluded from the word model before matching, so no stream match built
by the matching step ever references such a word. -/
theorem filter_space_words (width height : ℚ) (ws : List WordObj) :
    (∀ w ∈ _filter_invisible_words width height ws, w.t ≠ [' '] ∧ w.t ≠ [' '])
    ∧ (∀ rawTexts : List (List Char), ∀ st m,
        st ∈ (RawTextPreprocessor.init (_filter_invisible_words width height ws)
          rawTexts).raw_streams →
        m ∈ st.«matches» → m.data.t ≠ [' '] ∧ m.data.t ≠ [' ']) := by
  have hfiltered : ∀ w ∈ _filter_invisible_words width height ws,
      w.t ≠ [' '] ∧ w.t ≠ [' '] := by
    intro w hw
    unfold _filter_invisible_words at hw
    have hcond := (List.mem_filter.1 hw).2
    by_cases hsp : w.t = [' '] ∨ w.t = [' ']
    · rw [if_pos hsp] at hcond
      exact Bool.noConfusion hcond
    · exact ⟨fun h => hsp (Or.inl h), fun h => hsp (Or.inr h)⟩
  refine ⟨hfiltered, ?_⟩
  intro rawTexts st m hst hm
  unfold RawTextPreprocessor.init at hst
  obtain ⟨q, hq, rfl⟩ := List.mem_map.1 hst
  simp only [List.mem_flatMap, List.mem_map] at hm
  obtain ⟨pr, hpr, start, _, rfl⟩ := hm
  have hmem : pr.2 ∈ _filter_invisible_words width height ws := by
    rcases pr with ⟨i, a⟩
    obtain ⟨hlt, ha⟩ := List.mem_enum hpr
    rw [ha]
    exact List.getElem_mem _
  exact hfiltered _ hmem

/-- Witness for `filter_space_words`: a plain word survives the filter next
to a space word and an em-space word, and carries no space text. -/
theorem filter_space_words_witness :
    (exWa ∈ _filter_invisible_words 10 10 [⟨[' '], 0, 0, 1, 1⟩, exWa, ⟨[' '], 0, 0, 1, 1⟩])
    ∧ (exWa.t ≠ [' '] ∧ exWa.t ≠ [' ']) := by
  have hmem : exWa ∈ _filter_invisible_words 10 10
      [⟨[' '], 0, 0, 1, 1⟩, exWa, ⟨[' '], 0, 0, 1, 1⟩] := by
    unfold _filter_invisible_words
    rw [List.mem_filter]
    refine ⟨by simp, ?_⟩
    rw [if_neg (by simp [exWa])]
    show (Rectangle.inter ⟨exWa.x, exWa.y, exWa.w, exWa.h⟩ ⟨0, 0, 10, 10⟩).isSome = true
    unfold Rectangle.inter
    rw [if_pos (by norm_num [exWa])]
    rfl
  exact ⟨hmem, (filter_space_words 10 10 _).1 exWa hmem⟩

end Thor
